import Mathlib

/-!
Verification development for the flowchat PDF ingestion pipeline
(`server/ingest/ingest_pdfs.py`).

Text is modelled as `List Char` (Python `str`), raw bytes as `List Nat`,
Python `int` as `Int` where sign matters.  The external SHA-1 digest, the
embedding endpoint and the vector-index write endpoint are collaborators
outside the pipeline; they are passed in as explicit function parameters,
exactly as the spec treats them (deterministic capabilities).
-/

/-- Python whitespace predicate used by `str.strip()` (ASCII whitespace). -/
def pyIsSpace (c : Char) : Bool :=
  c = ' ' || c = '\t' || c = '\n' || c = '\r' || c = '\x0b' || c = '\x0c'

/-- Drop trailing whitespace, as the back half of Python `str.strip()`. -/
def trimBack (s : List Char) : List Char :=
  ((s.reverse).dropWhile pyIsSpace).reverse

/-- Python `str.strip()`: drop leading and trailing whitespace. -/
def pyStrip (s : List Char) : List Char :=
  trimBack (s.dropWhile pyIsSpace)

/-- Model of `effective_overlap = max(0, min(overlap, max_len - 1))`
(ingest_pdfs.py line 73). -/
def effective_overlap (max_len overlap : Int) : Int :=
  max 0 (min overlap (max_len - 1))

/-- Model of `step = max_len - effective_overlap` (ingest_pdfs.py line 74). -/
def chunk_step (max_len overlap : Int) : Int :=
  max_len - effective_overlap max_len overlap

/-- The sequence of raw windows visited by the `while i < n` loop of
`chunk_text` (ingest_pdfs.py lines 75-83): each element is the cursor
position paired with the untrimmed slice `text[i:min(i+max_len,n)]`.
The loop breaks after the window that reaches the end of the text.  The
first argument is recursion fuel: the loop runs at most `text.length`
iterations whenever `1 ≤ step`, so every caller passes `text.length`
(fuel irrelevance is `chunkWindows_fuel_irrel` below). -/
def chunkWindows (text : List Char) (maxLen step : Nat) :
    Nat → Nat → List (Nat × List Char)
  | 0, _ => []
  | fuel + 1, i =>
      if i < text.length then
        let e := min (i + maxLen) text.length
        (i, (text.drop i).take (e - i)) ::
          (if e = text.length then [] else chunkWindows text maxLen step fuel (i + step))
      else []

/-- Model of `chunk_text(text, max_len, overlap)` (ingest_pdfs.py lines 67-84):
returns [] on empty text or non-positive `max_len`; otherwise walks the
windows and keeps each stripped slice that is non-empty. -/
def chunk_text (text : List Char) (max_len : Int := 1800) (overlap : Int := 200) :
    List (List Char) :=
  if text.length = 0 ∨ max_len ≤ 0 then []
  else
    chunkWindows text max_len.toNat (chunk_step max_len overlap).toNat
      text.length 0 |>.filterMap (fun w =>
        let s := pyStrip w.2
        if s = [] then none else some s)

/-- Model of `stable_id(file_hash, page_num, chunk_index)` (ingest_pdfs.py lines
87-89): SHA-1 hex digest of `f"{file_hash}::{page_num}::{chunk_index}"`.
`sha1S` is the external SHA-1-of-text digest. -/
def stable_id (sha1S : String → String) (file_hash : String)
    (page_num chunk_index : Nat) : String :=
  sha1S (file_hash ++ "::" ++ toString page_num ++ "::" ++ toString chunk_index)

/-- Python `a or b` on an optional integer: `None` and `0` are falsy. -/
def pyOrInt (a : Option Int) (b : Int) : Int :=
  match a with
  | none => b
  | some v => if v = 0 then b else v

/-- The HTTP response of a turbopuffer write, as far as
`upsert_rows_turbopuffer` inspects it: the status code, whether the body
parsed as JSON, and the two optional count fields. -/
structure TpbResponse where
  status : Nat
  json_ok : Bool
  rows_upserted : Option Int
  rows_affected : Option Int
  deriving DecidableEq

/-- Model of `upsert_rows_turbopuffer` (ingest_pdfs.py lines 109-131) given the
response the endpoint sent back: raises (`Except.error`) on a status
≥ 400, otherwise returns
`int(data.get("rows_upserted") or data.get("rows_affected") or 0)`,
and `0` when the body fails to parse as JSON.  The submitted `rows` do
not influence the returned count. -/
def upsert_rows_turbopuffer {R : Type} (resp : TpbResponse) (rows : List R) :
    Except Unit Int :=
  if 400 ≤ resp.status then .error ()
  else if resp.json_ok then .ok (pyOrInt resp.rows_upserted (pyOrInt resp.rows_affected 0))
  else .ok 0

/-- The HTTP response of an OpenAI embeddings call, as far as
`embed_batch_openai` inspects it. -/
structure EmbResponse where
  status : Nat
  embeddings : List (List Int)
  deriving DecidableEq

/-- Model of `embed_batch_openai` (ingest_pdfs.py lines 92-106) given the response
the endpoint sent back: makes exactly one request; raises on a status
≥ 400 (no retry of any kind), otherwise returns the embeddings. -/
def embed_batch_openai (resp : EmbResponse) (texts : List (List Char)) :
    Except Unit (List (List Int)) :=
  if 400 ≤ resp.status then .error ()
  else .ok resp.embeddings

/-- One row of the turbopuffer upsert payload (ingest_pdfs.py lines
189-201).  The `section` field is always `None` in the source and is
kept as an `Option` that the pipeline never sets.  Vector components are
the floats the embedding endpoint returned, modelled opaquely as `Int`
(the pipeline never computes with them; dry-run uses the zero vector). -/
structure Row where
  id : String
  projectName : String
  link : String
  source_pdf : String
  page_num : Nat
  sectionVal : Option String
  chunk_index : Nat
  content : List Char
  vector : List Int
  content_hash : String
  timestamp : String
  deriving DecidableEq

/-- A network call attempted by `ingest_pdf`: an embeddings POST for a
batch of the given size, or an index-write POST for the given number of
rows. -/
inductive NetEvent where
  | embedCall (batchSize : Nat)
  | upsertCall (rowCount : Nat)
  deriving DecidableEq

/-- Returns `true` exactly on index-write events. -/
def NetEvent.isUpsert : NetEvent → Bool
  | .embedCall _ => false
  | .upsertCall _ => true

/-- The mutable state of one `ingest_pdf` run (ingest_pdfs.py lines
161-163) together with its observable history: `trace` records every
network call attempted, `rows_all` every row ever built (in build
order), `flushes` the row batches of every successful flush (in flush
order). -/
structure IngestState where
  total_chunks : Nat
  rows_buffer : List Row
  rows_written : Int
  trace : List NetEvent
  rows_all : List Row
  flushes : List (List Row)
  deriving DecidableEq

/-- The external collaborators of `ingest_pdf`: the SHA-1 digest over
bytes and over text, the embedding capability (key and batch to
vectors, or a raised error), and the index-write capability's response
to a submitted batch of `n` rows (reported count, or a raised error). -/
structure ExtEnv where
  sha1B : List Nat → String
  sha1S : String → String
  embedFn : String → List (List Char) → Except String (List (List Int))
  upsertResp : Nat → Except String Int

/-- The configuration arguments of `ingest_pdf` (ingest_pdfs.py lines
138-146). -/
structure IngestCfg where
  openai_key : Option String
  turbopuffer_key : Option String
  dry_run : Bool
  batch_embed : Nat
  write_batch : Nat
  chunk_size : Int
  chunk_overlap : Int

/-- The per-document values every built row shares (ingest_pdfs.py lines
152-159): the file hash, the caller metadata, the file name and the
once-per-document timestamp. -/
structure RowCtx where
  file_hash : String
  projectName : String
  link : String
  source_pdf : String
  timestamp : String

/-- The row literal of ingest_pdfs.py lines 189-201. -/
def mkRow (sha1S : String → String) (ctx : RowCtx) (page_num chunk_index : Nat)
    (content : List Char) (vector : List Int) : Row :=
  { id := stable_id sha1S ctx.file_hash page_num chunk_index
    projectName := ctx.projectName
    link := ctx.link
    source_pdf := ctx.source_pdf
    page_num := page_num
    sectionVal := none
    chunk_index := chunk_index
    content := content
    vector := vector
    content_hash := sha1S (String.mk content)
    timestamp := ctx.timestamp }

/-- The rows built from one embedding batch (ingest_pdfs.py lines
185-202): for `j, text in enumerate(batch)`, `chunk_index = i + j`,
vector `vectors[j]`. -/
def buildRows (sha1S : String → String) (ctx : RowCtx) (page_num : Nat)
    (i : Nat) (batch : List (List Char)) (vectors : List (List Int)) : List Row :=
  (List.range batch.length).map fun j =>
    mkRow sha1S ctx page_num (i + j) (batch.getD j []) (vectors.getD j [])

/-- Obtaining the vectors for one batch (ingest_pdfs.py lines 176-183):
dry-run substitutes `[0.0]*1536` per chunk with no network call;
otherwise a missing OpenAI key raises before any call, and otherwise one
embeddings call is attempted (recorded in the trace) whose outcome is
the embedding capability's answer. -/
def getVectors (cfg : IngestCfg) (env : ExtEnv) (batch : List (List Char))
    (st : IngestState) : IngestState × Except String (List (List Int)) :=
  if cfg.dry_run then (st, .ok (batch.map fun _ => List.replicate 1536 (0 : Int)))
  else
    match cfg.openai_key with
    | none => (st, .error "OPENAI_API_KEY is not set but embeddings are requested.")
    | some key =>
        ({st with trace := st.trace ++ [.embedCall batch.length]}, env.embedFn key batch)

/-- One flush of the whole buffer (ingest_pdfs.py lines 206-214 and
218-225): a missing turbopuffer key raises before any call; otherwise
one index-write call is attempted (recorded in the trace); on success
the reported count is added to `rows_written` and the buffer is
cleared. -/
def doFlush (env : ExtEnv) (key : Option String) (st : IngestState) :
    IngestState × Option String :=
  match key with
  | none => (st, some "TURBOPUFFER_API_KEY is not set.")
  | some _ =>
      let n := st.rows_buffer.length
      let st1 := {st with trace := st.trace ++ [.upsertCall n]}
      match env.upsertResp n with
      | .error e => (st1, some e)
      | .ok c =>
          ({st1 with rows_written := st1.rows_written + c
                     flushes := st1.flushes ++ [st.rows_buffer]
                     rows_buffer := []}, none)

/-- The in-loop flush guard (ingest_pdfs.py line 205):
`if not dry_run and len(rows_buffer) >= write_batch`. -/
def maybeFlush (cfg : IngestCfg) (env : ExtEnv) (st : IngestState) :
    IngestState × Option String :=
  if cfg.dry_run = false ∧ cfg.write_batch ≤ st.rows_buffer.length then
    doFlush env cfg.turbopuffer_key st
  else (st, none)

/-- The embedding-batch loop over one page's chunks (ingest_pdfs.py
lines 174-214): `for i in range(0, len(chunks), batch_embed)`, take the
batch, get its vectors, build and append the rows, and flush when the
buffer has reached `write_batch`.  A raise anywhere stops the loop and
carries the state accumulated so far.  The first `Nat` argument is
recursion fuel: the loop runs at most `chunks.length` iterations
whenever `1 ≤ batch_embed` (which the caller establishes, routing
`batch_embed = 0` to Python's `range` `ValueError` first), so the caller
passes `chunks.length` (fuel irrelevance is `processBatches_fuel_irrel`
below). -/
def processBatches (cfg : IngestCfg) (env : ExtEnv) (ctx : RowCtx)
    (page_num : Nat) (chunks : List (List Char)) :
    Nat → Nat → IngestState → IngestState × Option String
  | 0, _, st => (st, none)
  | fuel + 1, i, st =>
      if i < chunks.length then
        let batch := (chunks.drop i).take cfg.batch_embed
        match getVectors cfg env batch st with
        | (st1, .error e) => (st1, some e)
        | (st1, .ok vectors) =>
            let rows := buildRows env.sha1S ctx page_num i batch vectors
            let st2 := {st1 with rows_buffer := st1.rows_buffer ++ rows
                                 rows_all := st1.rows_all ++ rows}
            match maybeFlush cfg env st2 with
            | (st3, some e) => (st3, some e)
            | (st3, none) =>
                processBatches cfg env ctx page_num chunks fuel (i + cfg.batch_embed) st3
      else (st, none)

/-- The page loop of `ingest_pdf` (ingest_pdfs.py lines 165-214):
`for page_index, page_text in enumerate(pages)`, skipping falsy page
text and pages with no chunks, adding each page's chunk count to
`total_chunks` before embedding, then running the batch loop.  A zero
`batch_embed` makes Python's `range(0, len(chunks), 0)` raise
`ValueError`.  A raise anywhere stops the loop and carries the state
accumulated so far. -/
def processPages (cfg : IngestCfg) (env : ExtEnv) (ctx : RowCtx) :
    Nat → List (List Char) → IngestState → IngestState × Option String
  | _, [], st => (st, none)
  | pageIdx, p :: rest, st =>
      if p = [] then processPages cfg env ctx (pageIdx + 1) rest st
      else
        let chunks := chunk_text p cfg.chunk_size cfg.chunk_overlap
        if chunks = [] then processPages cfg env ctx (pageIdx + 1) rest st
        else
          let st1 := {st with total_chunks := st.total_chunks + chunks.length}
          if cfg.batch_embed = 0 then
            (st1, some "range() arg 3 must not be zero")
          else
            match processBatches cfg env ctx (pageIdx + 1) chunks
                chunks.length 0 st1 with
            | (st2, some e) => (st2, some e)
            | (st2, none) => processPages cfg env ctx (pageIdx + 1) rest st2

/-- The final flush (ingest_pdfs.py lines 217-225):
`if not dry_run and rows_buffer`. -/
def finalFlush (cfg : IngestCfg) (env : ExtEnv) (st : IngestState) :
    IngestState × Option String :=
  if cfg.dry_run = false ∧ st.rows_buffer ≠ [] then doFlush env cfg.turbopuffer_key st
  else (st, none)

/-- Model of `ingest_pdf` (ingest_pdfs.py lines 134-227).  `pages` is the output
of the external extraction capability (`extract_text_per_page`);
`bytesRead` is the outcome of `pdf_path.read_bytes()` (`none` when the
read raised, in which case the source substitutes `b""`).  The result is
the final state (whose `total_chunks` and `rows_written` fields are the
function's return tuple) together with the raised exception, if any. -/
def ingest_pdf (env : ExtEnv) (cfg : IngestCfg) (pages : List (List Char))
    (bytesRead : Option (List Nat))
    (pdf_name project_name source_link timestamp : String) :
    IngestState × Option String :=
  match processPages cfg env
      { file_hash := env.sha1B (bytesRead.getD [])
        projectName := project_name
        link := source_link
        source_pdf := pdf_name
        timestamp := timestamp }
      0 pages ⟨0, [], 0, [], [], []⟩ with
  | (st, some e) => (st, some e)
  | (st, none) => finalFlush cfg env st

/-- Conservation: the successfully flushed rows followed by the rows
still buffered are exactly the rows ever built, in order (no row dropped
or duplicated). -/
def ConsInv (st : IngestState) : Prop :=
  st.flushes.flatten ++ st.rows_buffer = st.rows_all













/-- No network event in the list is an index write. -/
def NoUp (l : List NetEvent) : Prop := ∀ e ∈ l, e.isUpsert = false

/-- Flush-size bounds carried through a non-dry run: every recorded
flush submitted at least `write_batch` rows (it was forced by the
threshold) and at most `write_batch - 1 + batch_embed` rows (the buffer
held less than `write_batch` rows before the last embedding batch was
appended). -/
def FlBound (cfg : IngestCfg) (st : IngestState) : Prop :=
  ∀ b ∈ st.flushes, cfg.write_batch ≤ b.length ∧
    b.length ≤ cfg.write_batch - 1 + cfg.batch_embed

/-- The (page number, chunk index) pairs `ingest_pdf` assigns, page by
page: page numbers are 1-based positions in `pages`, chunk indices are
assigned consecutively from 0 to the kept chunks of each page, in
emission order. -/
def expectedPageIdx (cs co : Int) : Nat → List (List Char) → List (Nat × Nat)
  | _, [] => []
  | pi, p :: rest =>
      ((List.range (chunk_text p cs co).length).map fun k => (pi + 1, k)) ++
        expectedPageIdx cs co (pi + 1) rest

/-- Replace the two origin fields (file name and timestamp) of a row. -/
def reTag (nm ts : String) (r : Row) : Row :=
  {r with source_pdf := nm, timestamp := ts}

/-- Apply a row transformation to every row an ingestion state holds. -/
def stMap (f : Row → Row) (st : IngestState) : IngestState :=
  {st with rows_buffer := st.rows_buffer.map f,
           rows_all := st.rows_all.map f,
           flushes := st.flushes.map (List.map f)}

/-- The `int` value a raised-or-returned upsert call contributed to
`rows_written` (`0` when it raised, since the increment never ran). -/
def okVal : Except String Int → Int
  | .ok c => c
  | .error _ => 0

/-- Accumulation: `rows_written` is exactly the sum of the counts the
write endpoint reported for the successful flushes, in order. -/
def WInv (env : ExtEnv) (st : IngestState) : Prop :=
  st.rows_written = (st.flushes.map fun b => okVal (env.upsertResp b.length)).sum

/-- A concrete external environment: identity digest over text, constant
digest over bytes, an embedding endpoint answering an empty vector per
text, a write endpoint reporting exactly the submitted count. -/
def envW : ExtEnv :=
  ⟨fun _ => "FB", fun s => s, fun _ b => .ok (b.map fun _ => []), fun n => .ok n⟩

def abcPage : List Char := 'a' :: 'b' :: 'c' :: []

/-! ### Lemmas about `pyStrip` -/

theorem dropWhile_dropWhile (p : Char → Bool) (l : List Char) :
    (l.dropWhile p).dropWhile p = l.dropWhile p := by
  induction l with
  | nil => rfl
  | cons a t ih =>
      by_cases h : p a
      · simp [List.dropWhile_cons, h, ih]
      · simp [List.dropWhile_cons, h]

theorem head_false_of_dropWhile_eq {p : Char → Bool} {a : Char} {t : List Char}
    (h : (a :: t).dropWhile p = a :: t) : p a = false := by
  by_cases hp : p a
  · exfalso
    rw [List.dropWhile_cons_of_pos hp] at h
    have h1 : (t.dropWhile p).length ≤ t.length := (List.dropWhile_sublist p).length_le
    have h2 := congrArg List.length h
    simp at h2
    omega
  · simpa using hp

theorem trimBack_idem (l : List Char) : trimBack (trimBack l) = trimBack l := by
  unfold trimBack
  rw [List.reverse_reverse, dropWhile_dropWhile]

theorem exists_trimBack_append (l : List Char) : ∃ s, l = trimBack l ++ s := by
  refine ⟨(l.reverse.takeWhile pyIsSpace).reverse, ?_⟩
  unfold trimBack
  rw [← List.reverse_append, List.takeWhile_append_dropWhile, List.reverse_reverse]

theorem dropWhile_trimBack {l : List Char} (h : l.dropWhile pyIsSpace = l) :
    (trimBack l).dropWhile pyIsSpace = trimBack l := by
  rcases htb : trimBack l with _ | ⟨a, t⟩
  · rfl
  · obtain ⟨s, hs⟩ := exists_trimBack_append l
    rw [htb] at hs
    have ha : pyIsSpace a = false := by
      have : l.dropWhile pyIsSpace = l := h
      rw [hs] at this
      simpa using @head_false_of_dropWhile_eq pyIsSpace a (t ++ s) (by simpa using this)
    simp [List.dropWhile_cons, ha]

theorem pyStrip_idem (l : List Char) : pyStrip (pyStrip l) = pyStrip l := by
  unfold pyStrip
  rw [dropWhile_trimBack (dropWhile_dropWhile pyIsSpace l), trimBack_idem]

/-! ### Lemmas about `chunkWindows` and `chunk_text` -/

theorem chunkWindows_fuel_irrel (text : List Char) (maxLen step : Nat)
    (hstep : 0 < step) :
    ∀ f1 f2 i, text.length - i ≤ f1 → text.length - i ≤ f2 →
      chunkWindows text maxLen step f1 i = chunkWindows text maxLen step f2 i := by
  intro f1
  induction f1 with
  | zero =>
      intro f2 i h1 _
      have hi : ¬ i < text.length := by omega
      cases f2 with
      | zero => rfl
      | succ f2' => simp [chunkWindows, hi]
  | succ f ih =>
      intro f2 i h1 h2
      by_cases hi : i < text.length
      · cases f2 with
        | zero => omega
        | succ f2' =>
            simp only [chunkWindows, hi, if_true]
            by_cases he : min (i + maxLen) text.length = text.length
            · simp [he]
            · simp only [he, if_false]
              rw [ih f2' (i + step) (by omega) (by omega)]
      · cases f2 with
        | zero => simp [chunkWindows, hi]
        | succ f2' => simp [chunkWindows, hi]

theorem chunkWindows_head {text : List Char} {maxLen step : Nat} :
    ∀ {fuel j : Nat} {x : Nat},
      x ∈ ((chunkWindows text maxLen step fuel j).map Prod.fst).head? → x = j := by
  intro fuel j x hx
  cases fuel with
  | zero => simp [chunkWindows] at hx
  | succ f =>
      by_cases hj : j < text.length
      · simp [chunkWindows, hj] at hx
        omega
      · simp [chunkWindows, hj] at hx

theorem chunkWindows_starts (text : List Char) (maxLen step : Nat)
    (hstep : 0 < step) :
    ∀ fuel i, List.Chain' (fun a b => b = a + step ∧ a < b)
      ((chunkWindows text maxLen step fuel i).map Prod.fst) := by
  intro fuel
  induction fuel with
  | zero => intro i; simp [chunkWindows]
  | succ f ih =>
      intro i
      by_cases hi : i < text.length
      · simp only [chunkWindows, hi, if_true]
        by_cases he : min (i + maxLen) text.length = text.length
        · simp [he]
        · simp only [he, if_false, List.map_cons]
          rw [List.chain'_cons']
          refine ⟨fun y hy => ?_, ih (i + step)⟩
          have := @chunkWindows_head text maxLen step f (i + step) y hy
          omega
      · simp [chunkWindows, hi]

theorem chunkWindows_length_le (text : List Char) (maxLen step : Nat)
    (hstep : 0 < step) :
    ∀ fuel i, (chunkWindows text maxLen step fuel i).length ≤ text.length - i := by
  intro fuel
  induction fuel with
  | zero => intro i; simp [chunkWindows]
  | succ f ih =>
      intro i
      by_cases hi : i < text.length
      · simp only [chunkWindows, hi, if_true]
        by_cases he : min (i + maxLen) text.length = text.length
        · simp [he]; omega
        · simp only [he, if_false, List.length_cons]
          have := ih (i + step)
          omega
      · simp [chunkWindows, hi]

theorem chunk_step_pos {max_len overlap : Int} (h : 0 < max_len) :
    1 ≤ chunk_step max_len overlap := by
  unfold chunk_step effective_overlap
  omega

theorem chunk_text_nil (max_len overlap : Int) : chunk_text [] max_len overlap = [] := by
  simp [chunk_text]

theorem chunk_text_mem {t : List Char} {max_len overlap : Int} {c : List Char}
    (hc : c ∈ chunk_text t max_len overlap) : c ≠ [] ∧ pyStrip c = c := by
  unfold chunk_text at hc
  split at hc
  · simp at hc
  · simp only [List.mem_filterMap] at hc
    obtain ⟨w, _, hw⟩ := hc
    by_cases hs : pyStrip w.2 = []
    · simp [hs] at hw
    · simp only [hs, if_neg, if_false] at hw
      cases hw
      exact ⟨hs, pyStrip_idem w.2⟩

theorem chunk_text_short {t : List Char} {max_len overlap : Int}
    (h0 : 0 < t.length) (hlt : (t.length : Int) < max_len) :
    chunk_text t max_len overlap = if pyStrip t = [] then [] else [pyStrip t] := by
  have hml : 0 < max_len := by omega
  have hcond : ¬ (t.length = 0 ∨ max_len ≤ 0) := by omega
  unfold chunk_text
  rw [if_neg hcond]
  obtain ⟨m, hm⟩ : ∃ m, t.length = m + 1 := ⟨t.length - 1, by omega⟩
  have hmin : min (0 + max_len.toNat) t.length = t.length := by omega
  rw [hm]
  simp only [chunkWindows]
  rw [if_pos h0, hmin]
  simp only [if_pos rfl, Nat.sub_zero, List.drop_zero, List.take_length]
  by_cases hs : pyStrip t = []
  · simp [List.filterMap_cons, hs]
  · simp [List.filterMap_cons, hs]

theorem chunk_text_length_le (t : List Char) (max_len overlap : Int) :
    (chunk_text t max_len overlap).length ≤ t.length := by
  unfold chunk_text
  split
  · simp
  · refine le_trans (List.length_filterMap_le _ _) ?_
    have hml : 0 < max_len := by omega
    have := chunkWindows_length_le t max_len.toNat (chunk_step max_len overlap).toNat
      (by have := @chunk_step_pos max_len overlap hml; omega) t.length 0
    omega

/-! ### Invariants of the ingestion state machine -/


theorem getVectors_fields (cfg : IngestCfg) (env : ExtEnv)
    (b : List (List Char)) (st : IngestState) :
    (getVectors cfg env b st).1.rows_buffer = st.rows_buffer ∧
    (getVectors cfg env b st).1.rows_all = st.rows_all ∧
    (getVectors cfg env b st).1.flushes = st.flushes ∧
    (getVectors cfg env b st).1.rows_written = st.rows_written ∧
    (getVectors cfg env b st).1.total_chunks = st.total_chunks := by
  unfold getVectors
  by_cases hd : cfg.dry_run
  · rw [if_pos hd]; exact ⟨rfl, rfl, rfl, rfl, rfl⟩
  · rw [if_neg hd]
    cases cfg.openai_key with
    | none => exact ⟨rfl, rfl, rfl, rfl, rfl⟩
    | some k => exact ⟨rfl, rfl, rfl, rfl, rfl⟩

theorem doFlush_consInv (env : ExtEnv) (k : Option String) (st : IngestState)
    (h : ConsInv st) : ConsInv (doFlush env k st).1 := by
  cases k with
  | none => exact h
  | some key =>
      unfold ConsInv
      simp only [doFlush]
      cases hr : env.upsertResp st.rows_buffer.length with
      | error e => simp only [hr]; exact h
      | ok c =>
          simp only [hr]
          simpa [List.flatten_append] using h

theorem maybeFlush_consInv (cfg : IngestCfg) (env : ExtEnv) (st : IngestState)
    (h : ConsInv st) : ConsInv (maybeFlush cfg env st).1 := by
  unfold maybeFlush
  split
  · exact doFlush_consInv env _ st h
  · exact h

theorem consInv_append (st : IngestState) (rows : List Row) (h : ConsInv st) :
    ConsInv {st with rows_buffer := st.rows_buffer ++ rows,
                     rows_all := st.rows_all ++ rows} := by
  unfold ConsInv at *
  simp only []
  rw [← List.append_assoc, h]

theorem processBatches_consInv (cfg : IngestCfg) (env : ExtEnv) (ctx : RowCtx)
    (pn : Nat) (chunks : List (List Char)) :
    ∀ fuel i st, ConsInv st →
      ConsInv (processBatches cfg env ctx pn chunks fuel i st).1 := by
  intro fuel
  induction fuel with
  | zero => intro i st h; exact h
  | succ f ih =>
      intro i st h
      by_cases hi : i < chunks.length
      · simp only [processBatches, if_pos hi]
        split
        case _ st1 e heq =>
          have := getVectors_fields cfg env ((chunks.drop i).take cfg.batch_embed) st
          rw [heq] at this
          unfold ConsInv at *
          rw [this.1, this.2.1, this.2.2.1]
          exact h
        case _ st1 vectors heq =>
          have hf := getVectors_fields cfg env ((chunks.drop i).take cfg.batch_embed) st
          rw [heq] at hf
          have h1 : ConsInv st1 := by
            unfold ConsInv at *
            rw [hf.1, hf.2.1, hf.2.2.1]
            exact h
          have h2 := consInv_append st1
            (buildRows env.sha1S ctx pn i ((chunks.drop i).take cfg.batch_embed) vectors) h1
          have h3 := maybeFlush_consInv cfg env _ h2
          split
          case _ st3 e heq2 => rw [heq2] at h3; exact h3
          case _ st3 heq2 =>
            rw [heq2] at h3
            exact ih _ st3 h3
      · simp only [processBatches, if_neg hi]
        exact h

theorem processPages_consInv (cfg : IngestCfg) (env : ExtEnv) (ctx : RowCtx) :
    ∀ pages pageIdx st, ConsInv st →
      ConsInv (processPages cfg env ctx pageIdx pages st).1 := by
  intro pages
  induction pages with
  | nil => intro pageIdx st h; exact h
  | cons p rest ih =>
      intro pageIdx st h
      simp only [processPages]
      by_cases hp : p = []
      · simp only [if_pos hp]; exact ih _ st h
      · simp only [if_neg hp]
        by_cases hc : chunk_text p cfg.chunk_size cfg.chunk_overlap = []
        · simp only [if_pos hc]; exact ih _ st h
        · simp only [if_neg hc]
          by_cases hbe : cfg.batch_embed = 0
          · simp only [if_pos hbe]; exact h
          · simp only [if_neg hbe]
            have h1 : ConsInv {st with total_chunks := st.total_chunks +
                (chunk_text p cfg.chunk_size cfg.chunk_overlap).length} := h
            have h2 := processBatches_consInv cfg env ctx (pageIdx + 1)
              (chunk_text p cfg.chunk_size cfg.chunk_overlap)
              (chunk_text p cfg.chunk_size cfg.chunk_overlap).length 0 _ h1
            split
            case _ st2 e heq => rw [heq] at h2; exact h2
            case _ st2 heq => rw [heq] at h2; exact ih _ st2 h2

theorem finalFlush_consInv (cfg : IngestCfg) (env : ExtEnv) (st : IngestState)
    (h : ConsInv st) : ConsInv (finalFlush cfg env st).1 := by
  unfold finalFlush
  split
  · exact doFlush_consInv env _ st h
  · exact h

theorem getVectors_noUp (cfg : IngestCfg) (env : ExtEnv) (b : List (List Char))
    (st : IngestState) (h : NoUp st.trace) : NoUp (getVectors cfg env b st).1.trace := by
  unfold getVectors
  by_cases hd : cfg.dry_run
  · rw [if_pos hd]; exact h
  · rw [if_neg hd]
    cases cfg.openai_key with
    | none => exact h
    | some k =>
        intro e he
        simp only [List.mem_append, List.mem_singleton] at he
        rcases he with he | he
        · exact h e he
        · rw [he]; rfl

theorem maybeFlush_trace_of_no_key (cfg : IngestCfg) (env : ExtEnv)
    (st : IngestState) (hk : cfg.turbopuffer_key = none) :
    (maybeFlush cfg env st).1.trace = st.trace := by
  unfold maybeFlush
  split
  · rw [hk]; rfl
  · rfl

theorem processBatches_noUp (cfg : IngestCfg) (env : ExtEnv) (ctx : RowCtx)
    (pn : Nat) (chunks : List (List Char)) (hk : cfg.turbopuffer_key = none) :
    ∀ fuel i st, NoUp st.trace →
      NoUp (processBatches cfg env ctx pn chunks fuel i st).1.trace := by
  intro fuel
  induction fuel with
  | zero => intro i st h; exact h
  | succ f ih =>
      intro i st h
      by_cases hi : i < chunks.length
      · simp only [processBatches, if_pos hi]
        split
        case _ st1 e heq =>
          have h1 := getVectors_noUp cfg env ((chunks.drop i).take cfg.batch_embed) st h
          rw [heq] at h1
          exact h1
        case _ st1 vectors heq =>
          have h1 := getVectors_noUp cfg env ((chunks.drop i).take cfg.batch_embed) st h
          rw [heq] at h1
          have h2 : NoUp ({st1 with
              rows_buffer := st1.rows_buffer ++ buildRows env.sha1S ctx pn i
                ((chunks.drop i).take cfg.batch_embed) vectors
              rows_all := st1.rows_all ++ buildRows env.sha1S ctx pn i
                ((chunks.drop i).take cfg.batch_embed) vectors} : IngestState).trace := h1
          have h3 := maybeFlush_trace_of_no_key cfg env {st1 with
              rows_buffer := st1.rows_buffer ++ buildRows env.sha1S ctx pn i
                ((chunks.drop i).take cfg.batch_embed) vectors
              rows_all := st1.rows_all ++ buildRows env.sha1S ctx pn i
                ((chunks.drop i).take cfg.batch_embed) vectors} hk
          split
          case _ st3 e heq2 => rw [heq2] at h3; rw [h3]; exact h2
          case _ st3 heq2 =>
            rw [heq2] at h3
            refine ih _ st3 ?_
            rw [h3]; exact h2
      · simp only [processBatches, if_neg hi]
        exact h

theorem processPages_noUp (cfg : IngestCfg) (env : ExtEnv) (ctx : RowCtx)
    (hk : cfg.turbopuffer_key = none) :
    ∀ pages pageIdx st, NoUp st.trace →
      NoUp (processPages cfg env ctx pageIdx pages st).1.trace := by
  intro pages
  induction pages with
  | nil => intro pageIdx st h; exact h
  | cons p rest ih =>
      intro pageIdx st h
      simp only [processPages]
      by_cases hp : p = []
      · simp only [if_pos hp]; exact ih _ st h
      · simp only [if_neg hp]
        by_cases hc : chunk_text p cfg.chunk_size cfg.chunk_overlap = []
        · simp only [if_pos hc]; exact ih _ st h
        · simp only [if_neg hc]
          by_cases hbe : cfg.batch_embed = 0
          · simp only [if_pos hbe]; exact h
          · simp only [if_neg hbe]
            have h1 := processBatches_noUp cfg env ctx (pageIdx + 1)
              (chunk_text p cfg.chunk_size cfg.chunk_overlap) hk
              (chunk_text p cfg.chunk_size cfg.chunk_overlap).length 0
              {st with total_chunks := st.total_chunks +
                (chunk_text p cfg.chunk_size cfg.chunk_overlap).length} h
            split
            case _ st2 e heq => rw [heq] at h1; exact h1
            case _ st2 heq => rw [heq] at h1; exact ih _ st2 h1

theorem finalFlush_trace_of_no_key (cfg : IngestCfg) (env : ExtEnv)
    (st : IngestState) (hk : cfg.turbopuffer_key = none) :
    (finalFlush cfg env st).1.trace = st.trace := by
  unfold finalFlush
  split
  · rw [hk]; rfl
  · rfl

/-- When the turbopuffer key is absent, no index-write network call is
ever attempted, whatever else happens. -/
theorem ingest_pdf_noUp (env : ExtEnv) (cfg : IngestCfg)
    (pages : List (List Char)) (bytesRead : Option (List Nat))
    (nm pj lk ts : String) (hk : cfg.turbopuffer_key = none) :
    NoUp (ingest_pdf env cfg pages bytesRead nm pj lk ts).1.trace := by
  unfold ingest_pdf
  have h0 : NoUp ([] : List NetEvent) := by intro e he; simp at he
  have h1 := processPages_noUp cfg env
    { file_hash := env.sha1B (bytesRead.getD []), projectName := pj, link := lk,
      source_pdf := nm, timestamp := ts } hk pages 0 ⟨0, [], 0, [], [], []⟩ h0
  split
  case _ st e heq => rw [heq] at h1; exact h1
  case _ st heq =>
    rw [heq] at h1
    have h2 := finalFlush_trace_of_no_key cfg env st hk
    intro e he
    rw [h2] at he
    exact h1 e he

theorem doFlush_fields (env : ExtEnv) (k : Option String) (st : IngestState) :
    (doFlush env k st).1.rows_all = st.rows_all ∧
    (doFlush env k st).1.total_chunks = st.total_chunks := by
  cases k with
  | none => exact ⟨rfl, rfl⟩
  | some key =>
      simp only [doFlush]
      cases hr : env.upsertResp st.rows_buffer.length with
      | error e => simp [hr]
      | ok c => simp [hr]

theorem maybeFlush_fields (cfg : IngestCfg) (env : ExtEnv) (st : IngestState) :
    (maybeFlush cfg env st).1.rows_all = st.rows_all ∧
    (maybeFlush cfg env st).1.total_chunks = st.total_chunks := by
  unfold maybeFlush
  split
  · exact doFlush_fields env _ st
  · exact ⟨rfl, rfl⟩

theorem finalFlush_fields (cfg : IngestCfg) (env : ExtEnv) (st : IngestState) :
    (finalFlush cfg env st).1.rows_all = st.rows_all ∧
    (finalFlush cfg env st).1.total_chunks = st.total_chunks := by
  unfold finalFlush
  split
  · exact doFlush_fields env _ st
  · exact ⟨rfl, rfl⟩

theorem buildRows_mem {sha1S : String → String} {ctx : RowCtx} {pn i : Nat}
    {batch : List (List Char)} {vectors : List (List Int)} {r : Row}
    (hr : r ∈ buildRows sha1S ctx pn i batch vectors) :
    ∃ j, j < batch.length ∧ r = mkRow sha1S ctx pn (i + j) (batch.getD j []) (vectors.getD j []) := by
  unfold buildRows at hr
  simp only [List.mem_map, List.mem_range] at hr
  obtain ⟨j, hj, hr⟩ := hr
  exact ⟨j, hj, hr.symm⟩

theorem processBatches_allP (cfg : IngestCfg) (env : ExtEnv) (ctx : RowCtx)
    (pn : Nat) (chunks : List (List Char)) (P : Row → Prop)
    (hP : ∀ pn2 ci c v, P (mkRow env.sha1S ctx pn2 ci c v)) :
    ∀ fuel i st, (∀ r ∈ st.rows_all, P r) →
      ∀ r ∈ (processBatches cfg env ctx pn chunks fuel i st).1.rows_all, P r := by
  intro fuel
  induction fuel with
  | zero => intro i st h; exact h
  | succ f ih =>
      intro i st h
      by_cases hi : i < chunks.length
      · simp only [processBatches, if_pos hi]
        split
        case _ st1 e heq =>
          have hf := getVectors_fields cfg env ((chunks.drop i).take cfg.batch_embed) st
          rw [heq] at hf
          rw [hf.2.1]
          exact h
        case _ st1 vectors heq =>
          have hf := getVectors_fields cfg env ((chunks.drop i).take cfg.batch_embed) st
          rw [heq] at hf
          have h2 : ∀ r ∈ ({st1 with
              rows_buffer := st1.rows_buffer ++ buildRows env.sha1S ctx pn i
                ((chunks.drop i).take cfg.batch_embed) vectors
              rows_all := st1.rows_all ++ buildRows env.sha1S ctx pn i
                ((chunks.drop i).take cfg.batch_embed) vectors} : IngestState).rows_all, P r := by
            intro r hr
            simp only [List.mem_append] at hr
            rcases hr with hr | hr
            · rw [hf.2.1] at hr
              exact h r hr
            · obtain ⟨j, _, hj⟩ := buildRows_mem hr
              rw [hj]; exact hP _ _ _ _
          have hmf := maybeFlush_fields cfg env {st1 with
              rows_buffer := st1.rows_buffer ++ buildRows env.sha1S ctx pn i
                ((chunks.drop i).take cfg.batch_embed) vectors
              rows_all := st1.rows_all ++ buildRows env.sha1S ctx pn i
                ((chunks.drop i).take cfg.batch_embed) vectors}
          split
          case _ st3 e heq2 =>
            rw [heq2] at hmf
            rw [hmf.1]
            exact h2
          case _ st3 heq2 =>
            rw [heq2] at hmf
            refine ih _ st3 ?_
            rw [hmf.1]
            exact h2
      · simp only [processBatches, if_neg hi]
        exact h

theorem processPages_allP (cfg : IngestCfg) (env : ExtEnv) (ctx : RowCtx)
    (P : Row → Prop)
    (hP : ∀ pn2 ci c v, P (mkRow env.sha1S ctx pn2 ci c v)) :
    ∀ pages pageIdx st, (∀ r ∈ st.rows_all, P r) →
      ∀ r ∈ (processPages cfg env ctx pageIdx pages st).1.rows_all, P r := by
  intro pages
  induction pages with
  | nil => intro pageIdx st h; exact h
  | cons p rest ih =>
      intro pageIdx st h
      simp only [processPages]
      by_cases hp : p = []
      · simp only [if_pos hp]; exact ih _ st h
      · simp only [if_neg hp]
        by_cases hc : chunk_text p cfg.chunk_size cfg.chunk_overlap = []
        · simp only [if_pos hc]; exact ih _ st h
        · simp only [if_neg hc]
          by_cases hbe : cfg.batch_embed = 0
          · simp only [if_pos hbe]; exact h
          · simp only [if_neg hbe]
            have h1 := processBatches_allP cfg env ctx (pageIdx + 1)
              (chunk_text p cfg.chunk_size cfg.chunk_overlap) P hP
              (chunk_text p cfg.chunk_size cfg.chunk_overlap).length 0
              {st with total_chunks := st.total_chunks +
                (chunk_text p cfg.chunk_size cfg.chunk_overlap).length} h
            split
            case _ st2 e heq => rw [heq] at h1; exact h1
            case _ st2 heq => rw [heq] at h1; exact ih _ st2 h1

/-- Every row an `ingest_pdf` run ever builds carries the id
`stable_id` derives from the document's byte fingerprint, the row's page
number and its chunk index, and the content hash of its own content —
nothing else enters either field. -/
theorem ingest_pdf_row_ids (env : ExtEnv) (cfg : IngestCfg)
    (pages : List (List Char)) (bytesRead : Option (List Nat))
    (nm pj lk ts : String) :
    ∀ r ∈ (ingest_pdf env cfg pages bytesRead nm pj lk ts).1.rows_all,
      r.id = stable_id env.sha1S (env.sha1B (bytesRead.getD [])) r.page_num r.chunk_index ∧
      r.content_hash = env.sha1S (String.mk r.content) := by
  unfold ingest_pdf
  have h1 := processPages_allP cfg env
    { file_hash := env.sha1B (bytesRead.getD []), projectName := pj, link := lk,
      source_pdf := nm, timestamp := ts }
    (fun r => r.id = stable_id env.sha1S (env.sha1B (bytesRead.getD [])) r.page_num r.chunk_index ∧
      r.content_hash = env.sha1S (String.mk r.content))
    (fun pn2 ci c v => ⟨rfl, rfl⟩)
    pages 0 ⟨0, [], 0, [], [], []⟩ (by intro r hr; simp at hr)
  split
  case _ st e heq => rw [heq] at h1; exact h1
  case _ st heq =>
    rw [heq] at h1
    have h2 := (finalFlush_fields cfg env st).1
    intro r hr
    rw [h2] at hr
    exact h1 r hr

theorem getD_map_const {α β : Type} (l : List α) (z : β) (j : Nat)
    (hj : j < l.length) (d : β) : (l.map fun _ => z).getD j d = z := by
  rw [List.getD_eq_getElem _ _ (by simpa using hj)]
  simp

theorem buildRows_length (sha1S : String → String) (ctx : RowCtx) (pn i : Nat)
    (batch : List (List Char)) (vectors : List (List Int)) :
    (buildRows sha1S ctx pn i batch vectors).length = batch.length := by
  unfold buildRows
  simp

/-- Dry-run characterization of the batch loop: no error is raised, the
state is unchanged except that the same block of rows is appended to the
buffer and to the build history, every appended row carries the
1536-dimensional zero vector, and (for positive batch size and enough
fuel) exactly one row per chunk from position `i` on is appended. -/
theorem processBatches_dry (cfg : IngestCfg) (env : ExtEnv) (ctx : RowCtx)
    (pn : Nat) (chunks : List (List Char)) (hdry : cfg.dry_run = true) :
    ∀ fuel i st, ∃ R : List Row,
      processBatches cfg env ctx pn chunks fuel i st =
        ({st with rows_buffer := st.rows_buffer ++ R, rows_all := st.rows_all ++ R}, none) ∧
      (∀ r ∈ R, r.vector = List.replicate 1536 (0 : Int)) ∧
      (chunks.length - i ≤ fuel → 1 ≤ cfg.batch_embed → R.length = chunks.length - i) := by
  intro fuel
  induction fuel with
  | zero =>
      intro i st
      refine ⟨[], ?_, fun r hr => absurd hr (List.not_mem_nil r), ?_⟩
      · show (st, none) =
          ({st with rows_buffer := st.rows_buffer ++ [], rows_all := st.rows_all ++ []}, none)
        rw [List.append_nil, List.append_nil]
      · intro h _
        simp only [List.length_nil]
        omega
  | succ f ih =>
      intro i st
      by_cases hi : i < chunks.length
      · have hgv : getVectors cfg env ((chunks.drop i).take cfg.batch_embed) st =
            (st, .ok (((chunks.drop i).take cfg.batch_embed).map fun _ =>
              List.replicate 1536 (0 : Int))) := by
          unfold getVectors
          rw [if_pos hdry]
        have hmf : ∀ st2 : IngestState, maybeFlush cfg env st2 = (st2, none) := by
          intro st2
          unfold maybeFlush
          rw [if_neg]
          intro hcon
          rw [hdry] at hcon
          exact Bool.noConfusion hcon.1
        obtain ⟨R', hrec, hvec, hlen⟩ := ih (i + cfg.batch_embed)
          ({st with
            rows_buffer := st.rows_buffer ++ buildRows env.sha1S ctx pn i
              ((chunks.drop i).take cfg.batch_embed)
              (((chunks.drop i).take cfg.batch_embed).map fun _ => List.replicate 1536 (0 : Int)),
            rows_all := st.rows_all ++ buildRows env.sha1S ctx pn i
              ((chunks.drop i).take cfg.batch_embed)
              (((chunks.drop i).take cfg.batch_embed).map fun _ => List.replicate 1536 (0 : Int))})
        refine ⟨buildRows env.sha1S ctx pn i ((chunks.drop i).take cfg.batch_embed)
            (((chunks.drop i).take cfg.batch_embed).map fun _ => List.replicate 1536 (0 : Int))
          ++ R', ?_, ?_, ?_⟩
        · simp only [processBatches, if_pos hi]
          rw [hgv]
          simp only [hmf]
          rw [hrec]
          dsimp only
          simp only [List.append_assoc]
        · intro r hr
          rcases List.mem_append.mp hr with hr | hr
          · obtain ⟨j, hj, hjr⟩ := buildRows_mem hr
            rw [hjr]
            show (((chunks.drop i).take cfg.batch_embed).map fun _ =>
              List.replicate 1536 (0 : Int)).getD j [] = _
            exact getD_map_const _ _ _ hj _
          · exact hvec r hr
        · intro hfuel hbe
          rw [List.length_append, buildRows_length,
            hlen (by omega) hbe, List.length_take, List.length_drop]
          omega
      · refine ⟨[], ?_, fun r hr => absurd hr (List.not_mem_nil r), ?_⟩
        · simp only [processBatches, if_neg hi]
          rw [List.append_nil, List.append_nil]
        · intro h _
          simp only [List.length_nil]
          omega

/-- Dry-run characterization of the page loop: no error, trace, flushes
and `rows_written` untouched, `total_chunks` grows by the total kept
chunk count, and one zero-vector row per kept chunk is appended to both
the buffer and the build history. -/
theorem processPages_dry (cfg : IngestCfg) (env : ExtEnv) (ctx : RowCtx)
    (hdry : cfg.dry_run = true) (hbe : 1 ≤ cfg.batch_embed) :
    ∀ pages pageIdx st, ∃ R : List Row,
      processPages cfg env ctx pageIdx pages st =
        ({st with rows_buffer := st.rows_buffer ++ R, rows_all := st.rows_all ++ R,
                  total_chunks := st.total_chunks + (pages.map fun p =>
                    (chunk_text p cfg.chunk_size cfg.chunk_overlap).length).sum}, none) ∧
      (∀ r ∈ R, r.vector = List.replicate 1536 (0 : Int)) ∧
      R.length = (pages.map fun p =>
        (chunk_text p cfg.chunk_size cfg.chunk_overlap).length).sum := by
  intro pages
  induction pages with
  | nil =>
      intro pageIdx st
      refine ⟨[], ?_, fun r hr => absurd hr (List.not_mem_nil r), by simp⟩
      show (st, none) = _
      rw [List.append_nil, List.append_nil]
      simp only [List.map_nil, List.sum_nil, Nat.add_zero]
  | cons p rest ih =>
      intro pageIdx st
      by_cases hp : p = []
      · obtain ⟨R, hrec, hvec, hlen⟩ := ih (pageIdx + 1) st
        refine ⟨R, ?_, hvec, ?_⟩
        · simp only [processPages, if_pos hp]
          rw [hrec]
          subst hp
          simp only [List.map_cons, List.sum_cons, chunk_text_nil, List.length_nil,
            Nat.zero_add]
        · subst hp
          simp only [List.map_cons, List.sum_cons, chunk_text_nil, List.length_nil,
            Nat.zero_add]
          exact hlen
      · by_cases hc : chunk_text p cfg.chunk_size cfg.chunk_overlap = []
        · obtain ⟨R, hrec, hvec, hlen⟩ := ih (pageIdx + 1) st
          refine ⟨R, ?_, hvec, ?_⟩
          · simp only [processPages, if_neg hp, if_pos hc]
            rw [hrec]
            simp only [List.map_cons, List.sum_cons, hc, List.length_nil, Nat.zero_add]
          · simp only [List.map_cons, List.sum_cons, hc, List.length_nil, Nat.zero_add]
            exact hlen
        · obtain ⟨R1, hrec1, hvec1, hlen1⟩ := processBatches_dry cfg env ctx (pageIdx + 1)
            (chunk_text p cfg.chunk_size cfg.chunk_overlap) hdry
            (chunk_text p cfg.chunk_size cfg.chunk_overlap).length 0
            ({st with total_chunks := st.total_chunks + (chunk_text p cfg.chunk_size cfg.chunk_overlap).length})
          obtain ⟨R2, hrec2, hvec2, hlen2⟩ := ih (pageIdx + 1)
            ({st with
                total_chunks := st.total_chunks + (chunk_text p cfg.chunk_size cfg.chunk_overlap).length,
                rows_buffer := st.rows_buffer ++ R1,
                rows_all := st.rows_all ++ R1})
          refine ⟨R1 ++ R2, ?_, ?_, ?_⟩
          · simp only [processPages, if_neg hp, if_neg hc, if_neg (by omega : ¬ cfg.batch_embed = 0)]
            rw [hrec1]
            dsimp only
            rw [hrec2]
            dsimp only
            simp only [List.map_cons, List.sum_cons, List.append_assoc, Nat.add_assoc]
          · intro r hr
            rcases List.mem_append.mp hr with hr | hr
            · exact hvec1 r hr
            · exact hvec2 r hr
          · rw [List.length_append, hlen1 (by omega) hbe, hlen2]
            simp only [List.map_cons, List.sum_cons, Nat.sub_zero]

theorem finalFlush_dry (cfg : IngestCfg) (env : ExtEnv) (st : IngestState)
    (hdry : cfg.dry_run = true) : finalFlush cfg env st = (st, none) := by
  unfold finalFlush
  rw [if_neg]
  intro hcon
  rw [hdry] at hcon
  exact Bool.noConfusion hcon.1

theorem maybeFlush_bf (cfg : IngestCfg) (env : ExtEnv) (st : IngestState)
    (hdry : cfg.dry_run = false) (hwb : 1 ≤ cfg.write_batch)
    (hbuf : st.rows_buffer.length ≤ cfg.write_batch - 1 + cfg.batch_embed)
    (hfl : FlBound cfg st) :
    ∀ st3, maybeFlush cfg env st = (st3, none) →
      st3.rows_buffer.length < cfg.write_batch ∧ FlBound cfg st3 := by
  intro st3 hres
  unfold maybeFlush at hres
  split at hres
  case _ hg =>
    unfold doFlush at hres
    cases hk : cfg.turbopuffer_key with
    | none => rw [hk] at hres; exact absurd (congrArg Prod.snd hres) (by simp)
    | some key =>
        rw [hk] at hres
        simp only [] at hres
        cases hr : env.upsertResp st.rows_buffer.length with
        | error e => rw [hr] at hres; exact absurd (congrArg Prod.snd hres) (by simp)
        | ok c =>
            rw [hr] at hres
            have hst3 := congrArg Prod.fst hres
            simp only [] at hst3
            rw [← hst3]
            constructor
            · simp
              omega
            · intro b hb
              simp only [List.mem_append, List.mem_singleton] at hb
              rcases hb with hb | hb
              · exact hfl b hb
              · rw [hb]
                exact ⟨hg.2, hbuf⟩
  case _ hg =>
    have hst3 := congrArg Prod.fst hres
    simp only [] at hst3
    rw [← hst3]
    refine ⟨?_, hfl⟩
    rw [hdry] at hg
    simp only [true_and, not_le] at hg
    exact hg

theorem processBatches_bf (cfg : IngestCfg) (env : ExtEnv) (ctx : RowCtx)
    (pn : Nat) (chunks : List (List Char)) (hdry : cfg.dry_run = false)
    (hwb : 1 ≤ cfg.write_batch) :
    ∀ fuel i st st', st.rows_buffer.length < cfg.write_batch → FlBound cfg st →
      processBatches cfg env ctx pn chunks fuel i st = (st', none) →
      st'.rows_buffer.length < cfg.write_batch ∧ FlBound cfg st' := by
  intro fuel
  induction fuel with
  | zero =>
      intro i st st' hb hf hres
      cases hres
      exact ⟨hb, hf⟩
  | succ f ih =>
      intro i st st' hb hf hres
      by_cases hi : i < chunks.length
      · simp only [processBatches, if_pos hi] at hres
        split at hres
        case _ st1 e heq => exact absurd (congrArg Prod.snd hres) (by simp)
        case _ st1 vectors heq =>
          have hfv := getVectors_fields cfg env ((chunks.drop i).take cfg.batch_embed) st
          rw [heq] at hfv
          split at hres
          case _ st3 e heq2 => exact absurd (congrArg Prod.snd hres) (by simp)
          case _ st3 heq2 =>
            have hlen2 : (st1.rows_buffer ++ buildRows env.sha1S ctx pn i
                ((chunks.drop i).take cfg.batch_embed) vectors).length ≤
                cfg.write_batch - 1 + cfg.batch_embed := by
              rw [List.length_append, buildRows_length, hfv.1, List.length_take]
              have : min cfg.batch_embed (chunks.drop i).length ≤ cfg.batch_embed :=
                Nat.min_le_left _ _
              omega
            have hmb := maybeFlush_bf cfg env _ hdry hwb (by simpa using hlen2)
              (by
                show FlBound cfg ({st1 with
                  rows_buffer := st1.rows_buffer ++ buildRows env.sha1S ctx pn i
                    ((chunks.drop i).take cfg.batch_embed) vectors,
                  rows_all := st1.rows_all ++ buildRows env.sha1S ctx pn i
                    ((chunks.drop i).take cfg.batch_embed) vectors} : IngestState)
                intro b hbm
                exact hf b (by rw [← hfv.2.2.1]; exact hbm))
              st3 heq2
            exact ih _ st3 st' hmb.1 hmb.2 hres
      · simp only [processBatches, if_neg hi] at hres
        cases hres
        exact ⟨hb, hf⟩

theorem processPages_bf (cfg : IngestCfg) (env : ExtEnv) (ctx : RowCtx)
    (hdry : cfg.dry_run = false) (hwb : 1 ≤ cfg.write_batch) :
    ∀ pages pageIdx st st', st.rows_buffer.length < cfg.write_batch → FlBound cfg st →
      processPages cfg env ctx pageIdx pages st = (st', none) →
      st'.rows_buffer.length < cfg.write_batch ∧ FlBound cfg st' := by
  intro pages
  induction pages with
  | nil =>
      intro pageIdx st st' hb hf hres
      cases hres
      exact ⟨hb, hf⟩
  | cons p rest ih =>
      intro pageIdx st st' hb hf hres
      simp only [processPages] at hres
      by_cases hp : p = []
      · rw [if_pos hp] at hres; exact ih _ st st' hb hf hres
      · rw [if_neg hp] at hres
        by_cases hc : chunk_text p cfg.chunk_size cfg.chunk_overlap = []
        · rw [if_pos hc] at hres; exact ih _ st st' hb hf hres
        · rw [if_neg hc] at hres
          by_cases hbe : cfg.batch_embed = 0
          · rw [if_pos hbe] at hres
            exact absurd (congrArg Prod.snd hres) (by simp)
          · rw [if_neg hbe] at hres
            split at hres
            case _ st2 e heq => exact absurd (congrArg Prod.snd hres) (by simp)
            case _ st2 heq =>
              have h1 := processBatches_bf cfg env ctx (pageIdx + 1)
                (chunk_text p cfg.chunk_size cfg.chunk_overlap) hdry hwb
                (chunk_text p cfg.chunk_size cfg.chunk_overlap).length 0
                ({st with total_chunks := st.total_chunks + (chunk_text p cfg.chunk_size cfg.chunk_overlap).length})
                st2 hb hf heq
              exact ih _ st2 st' h1.1 h1.2 hres

theorem finalFlush_bf (cfg : IngestCfg) (env : ExtEnv) (st : IngestState)
    (hdry : cfg.dry_run = false) (hwb : 1 ≤ cfg.write_batch)
    (hb : st.rows_buffer.length < cfg.write_batch) (hf : FlBound cfg st) :
    ∀ st', finalFlush cfg env st = (st', none) →
      st'.rows_buffer = [] ∧
      (∀ b ∈ st'.flushes, 1 ≤ b.length ∧
        b.length ≤ cfg.write_batch - 1 + cfg.batch_embed) ∧
      (∀ b ∈ st'.flushes.dropLast, cfg.write_batch ≤ b.length) := by
  intro st' hres
  unfold finalFlush at hres
  split at hres
  case _ hg =>
    unfold doFlush at hres
    cases hk : cfg.turbopuffer_key with
    | none => rw [hk] at hres; exact absurd (congrArg Prod.snd hres) (by simp)
    | some key =>
        rw [hk] at hres
        simp only [] at hres
        cases hr : env.upsertResp st.rows_buffer.length with
        | error e => rw [hr] at hres; exact absurd (congrArg Prod.snd hres) (by simp)
        | ok c =>
            rw [hr] at hres
            have hst' := congrArg Prod.fst hres
            simp only [] at hst'
            rw [← hst']
            refine ⟨rfl, ?_, ?_⟩
            · intro b hbm
              simp only [List.mem_append, List.mem_singleton] at hbm
              rcases hbm with hbm | hbm
              · have := hf b hbm; omega
              · rw [hbm]
                have hne : st.rows_buffer ≠ [] := hg.2
                have : 0 < st.rows_buffer.length := List.length_pos.mpr hne
                omega
            · intro b hbm
              show cfg.write_batch ≤ b.length
              have hdl : (st.flushes ++ [st.rows_buffer]).dropLast = st.flushes := by
                simp
              have hbm2 : b ∈ (st.flushes ++ [st.rows_buffer]).dropLast := hbm
              rw [hdl] at hbm2
              exact (hf b hbm2).1
  case _ hg =>
    have hst' := congrArg Prod.fst hres
    simp only [] at hst'
    rw [← hst']
    have hbuf : st.rows_buffer = [] := by
      by_contra hne
      exact hg ⟨hdry, hne⟩
    refine ⟨hbuf, ?_, ?_⟩
    · intro b hbm
      have := hf b hbm
      omega
    · intro b hbm
      exact (hf b ((List.dropLast_sublist _).subset hbm)).1

theorem buildRows_proj (sha1S : String → String) (ctx : RowCtx) (pn i : Nat)
    (batch : List (List Char)) (vectors : List (List Int)) :
    (buildRows sha1S ctx pn i batch vectors).map (fun r => (r.page_num, r.chunk_index)) =
      (List.range' i batch.length).map fun k => (pn, k) := by
  unfold buildRows
  rw [List.range'_eq_map_range]
  simp only [List.map_map]
  rfl

theorem processBatches_idx (cfg : IngestCfg) (env : ExtEnv) (ctx : RowCtx)
    (pn : Nat) (chunks : List (List Char)) (hbe : 1 ≤ cfg.batch_embed) :
    ∀ fuel i st st', chunks.length - i ≤ fuel →
      processBatches cfg env ctx pn chunks fuel i st = (st', none) →
      st'.rows_all.map (fun r => (r.page_num, r.chunk_index)) =
        st.rows_all.map (fun r => (r.page_num, r.chunk_index)) ++
          ((List.range' i (chunks.length - i)).map fun k => (pn, k)) := by
  intro fuel
  induction fuel with
  | zero =>
      intro i st st' hfuel hres
      cases hres
      have h0 : chunks.length - i = 0 := by omega
      rw [h0]
      simp
  | succ f ih =>
      intro i st st' hfuel hres
      by_cases hi : i < chunks.length
      · simp only [processBatches, if_pos hi] at hres
        split at hres
        case _ st1 e heq => exact absurd (congrArg Prod.snd hres) (by simp)
        case _ st1 vectors heq =>
          have hfv := getVectors_fields cfg env ((chunks.drop i).take cfg.batch_embed) st
          rw [heq] at hfv
          split at hres
          case _ st3 e heq2 => exact absurd (congrArg Prod.snd hres) (by simp)
          case _ st3 heq2 =>
            have hmf := maybeFlush_fields cfg env ({st1 with
              rows_buffer := st1.rows_buffer ++ buildRows env.sha1S ctx pn i
                ((chunks.drop i).take cfg.batch_embed) vectors,
              rows_all := st1.rows_all ++ buildRows env.sha1S ctx pn i
                ((chunks.drop i).take cfg.batch_embed) vectors})
            rw [heq2] at hmf
            have hst3 : st3.rows_all = st.rows_all ++ buildRows env.sha1S ctx pn i
                ((chunks.drop i).take cfg.batch_embed) vectors := by
              rw [hmf.1, hfv.2.1]
            have hrec := ih (i + cfg.batch_embed) st3 st' (by omega) hres
            rw [hrec, hst3, List.map_append, buildRows_proj, List.append_assoc]
            congr 1
            have hbl : ((chunks.drop i).take cfg.batch_embed).length =
                min cfg.batch_embed (chunks.length - i) := by
              rw [List.length_take, List.length_drop]
            rw [hbl]
            by_cases hle : cfg.batch_embed ≤ chunks.length - i
            · rw [Nat.min_eq_left hle, ← List.map_append]
              congr 1
              have heqn : chunks.length - i =
                  (chunks.length - (i + cfg.batch_embed)) + cfg.batch_embed := by
                omega
              rw [heqn]
              exact List.range'_append_1 i cfg.batch_embed (chunks.length - (i + cfg.batch_embed))
            · have h2 : chunks.length - (i + cfg.batch_embed) = 0 := by omega
              have h3 : min cfg.batch_embed (chunks.length - i) = chunks.length - i := by
                omega
              rw [h2, h3]
              simp
      · simp only [processBatches, if_neg hi] at hres
        cases hres
        have h0 : chunks.length - i = 0 := by omega
        rw [h0]
        simp

theorem processPages_idx (cfg : IngestCfg) (env : ExtEnv) (ctx : RowCtx) :
    ∀ pages pageIdx st st',
      processPages cfg env ctx pageIdx pages st = (st', none) →
      st'.rows_all.map (fun r => (r.page_num, r.chunk_index)) =
        st.rows_all.map (fun r => (r.page_num, r.chunk_index)) ++
          expectedPageIdx cfg.chunk_size cfg.chunk_overlap pageIdx pages := by
  intro pages
  induction pages with
  | nil =>
      intro pageIdx st st' hres
      cases hres
      simp [expectedPageIdx]
  | cons p rest ih =>
      intro pageIdx st st' hres
      simp only [processPages] at hres
      by_cases hp : p = []
      · rw [if_pos hp] at hres
        rw [ih _ st st' hres]
        subst hp
        simp [expectedPageIdx, chunk_text_nil]
      · rw [if_neg hp] at hres
        by_cases hc : chunk_text p cfg.chunk_size cfg.chunk_overlap = []
        · rw [if_pos hc] at hres
          rw [ih _ st st' hres]
          simp [expectedPageIdx, hc]
        · rw [if_neg hc] at hres
          by_cases hbe : cfg.batch_embed = 0
          · rw [if_pos hbe] at hres
            exact absurd (congrArg Prod.snd hres) (by simp)
          · rw [if_neg hbe] at hres
            split at hres
            case _ st2 e heq => exact absurd (congrArg Prod.snd hres) (by simp)
            case _ st2 heq =>
              have h1 := processBatches_idx cfg env ctx (pageIdx + 1)
                (chunk_text p cfg.chunk_size cfg.chunk_overlap) (by omega)
                (chunk_text p cfg.chunk_size cfg.chunk_overlap).length 0
                ({st with total_chunks := st.total_chunks + (chunk_text p cfg.chunk_size cfg.chunk_overlap).length})
                st2 (by omega) heq
              rw [ih _ st2 st' hres, h1]
              show st.rows_all.map _ ++ _ ++ _ = _
              rw [List.append_assoc]
              congr 1
              simp only [expectedPageIdx, Nat.sub_zero, List.range_eq_range']

/-- On every run that raises no exception, the (page number, chunk
index) pairs of the built rows are exactly one pair per kept chunk, page
by page, with chunk indices consecutive from 0 within each page. -/
theorem ingest_pdf_idx (env : ExtEnv) (cfg : IngestCfg)
    (pages : List (List Char)) (bytesRead : Option (List Nat))
    (nm pj lk ts : String)
    (hok : (ingest_pdf env cfg pages bytesRead nm pj lk ts).2 = none) :
    (ingest_pdf env cfg pages bytesRead nm pj lk ts).1.rows_all.map
        (fun r => (r.page_num, r.chunk_index)) =
      expectedPageIdx cfg.chunk_size cfg.chunk_overlap 0 pages := by
  revert hok
  unfold ingest_pdf
  split
  case _ st e heq => intro hok; exact absurd hok (by simp)
  case _ st heq =>
    intro _
    have h1 := processPages_idx cfg env
      { file_hash := env.sha1B (bytesRead.getD []), projectName := pj, link := lk,
        source_pdf := nm, timestamp := ts } pages 0 ⟨0, [], 0, [], [], []⟩ st heq
    rw [(finalFlush_fields cfg env st).1, h1]
    simp

theorem getVectors_stMap (cfg : IngestCfg) (env : ExtEnv) (b : List (List Char))
    (f : Row → Row) (st : IngestState) :
    getVectors cfg env b (stMap f st) =
      (stMap f (getVectors cfg env b st).1, (getVectors cfg env b st).2) := by
  unfold getVectors
  by_cases hd : cfg.dry_run
  · rw [if_pos hd, if_pos hd]
  · rw [if_neg hd, if_neg hd]
    cases cfg.openai_key with
    | none => rfl
    | some key => rfl

theorem doFlush_stMap (env : ExtEnv) (k : Option String) (f : Row → Row)
    (st : IngestState) :
    doFlush env k (stMap f st) =
      (stMap f (doFlush env k st).1, (doFlush env k st).2) := by
  cases k with
  | none => rfl
  | some key =>
      simp only [doFlush]
      have hlen : (stMap f st).rows_buffer.length = st.rows_buffer.length := by
        unfold stMap
        simp
      rw [hlen]
      cases hr : env.upsertResp st.rows_buffer.length with
      | error e => rfl
      | ok c =>
          simp only []
          unfold stMap
          simp

theorem maybeFlush_stMap (cfg : IngestCfg) (env : ExtEnv) (f : Row → Row)
    (st : IngestState) :
    maybeFlush cfg env (stMap f st) =
      (stMap f (maybeFlush cfg env st).1, (maybeFlush cfg env st).2) := by
  unfold maybeFlush
  have hlen : (stMap f st).rows_buffer.length = st.rows_buffer.length := by
    unfold stMap
    simp
  by_cases hg : cfg.dry_run = false ∧ cfg.write_batch ≤ st.rows_buffer.length
  · rw [if_pos (by rw [hlen]; exact hg), if_pos hg]
    exact doFlush_stMap env _ f st
  · rw [if_neg (by rw [hlen]; exact hg), if_neg hg]

theorem mkRow_reTag (sha1S : String → String) (ctx : RowCtx) (nm ts : String)
    (pn ci : Nat) (c : List Char) (v : List Int) :
    mkRow sha1S {ctx with source_pdf := nm, timestamp := ts} pn ci c v =
      reTag nm ts (mkRow sha1S ctx pn ci c v) := rfl

theorem buildRows_reTag (sha1S : String → String) (ctx : RowCtx) (nm ts : String)
    (pn i : Nat) (batch : List (List Char)) (vectors : List (List Int)) :
    buildRows sha1S {ctx with source_pdf := nm, timestamp := ts} pn i batch vectors =
      (buildRows sha1S ctx pn i batch vectors).map (reTag nm ts) := by
  unfold buildRows
  rw [List.map_map]
  rfl

theorem processBatches_stMap (cfg : IngestCfg) (env : ExtEnv) (ctx : RowCtx)
    (nm ts : String) (pn : Nat) (chunks : List (List Char)) :
    ∀ fuel i st,
      processBatches cfg env {ctx with source_pdf := nm, timestamp := ts} pn chunks
        fuel i (stMap (reTag nm ts) st) =
      (stMap (reTag nm ts) (processBatches cfg env ctx pn chunks fuel i st).1,
        (processBatches cfg env ctx pn chunks fuel i st).2) := by
  intro fuel
  induction fuel with
  | zero => intro i st; rfl
  | succ f ih =>
      intro i st
      by_cases hi : i < chunks.length
      · simp only [processBatches, if_pos hi]
        rw [getVectors_stMap]
        rcases hgv : getVectors cfg env ((chunks.drop i).take cfg.batch_embed) st
          with ⟨st1, rv⟩
        cases rv with
        | error e => rfl
        | ok vectors =>
            simp only []
            rw [buildRows_reTag]
            have hst2 : ({stMap (reTag nm ts) st1 with
                rows_buffer := (stMap (reTag nm ts) st1).rows_buffer ++
                  (buildRows env.sha1S ctx pn i ((chunks.drop i).take cfg.batch_embed)
                    vectors).map (reTag nm ts),
                rows_all := (stMap (reTag nm ts) st1).rows_all ++
                  (buildRows env.sha1S ctx pn i ((chunks.drop i).take cfg.batch_embed)
                    vectors).map (reTag nm ts)} : IngestState) =
              stMap (reTag nm ts) ({st1 with
                rows_buffer := st1.rows_buffer ++ buildRows env.sha1S ctx pn i
                  ((chunks.drop i).take cfg.batch_embed) vectors,
                rows_all := st1.rows_all ++ buildRows env.sha1S ctx pn i
                  ((chunks.drop i).take cfg.batch_embed) vectors}) := by
              unfold stMap
              simp
            rw [hst2, maybeFlush_stMap]
            rcases hmf : maybeFlush cfg env ({st1 with
                rows_buffer := st1.rows_buffer ++ buildRows env.sha1S ctx pn i
                  ((chunks.drop i).take cfg.batch_embed) vectors,
                rows_all := st1.rows_all ++ buildRows env.sha1S ctx pn i
                  ((chunks.drop i).take cfg.batch_embed) vectors}) with ⟨st3, rm⟩
            cases rm with
            | some e => rfl
            | none => exact ih _ st3
      · simp only [processBatches, if_neg hi]

theorem processPages_stMap (cfg : IngestCfg) (env : ExtEnv) (ctx : RowCtx)
    (nm ts : String) :
    ∀ pages pageIdx st,
      processPages cfg env {ctx with source_pdf := nm, timestamp := ts} pageIdx pages
        (stMap (reTag nm ts) st) =
      (stMap (reTag nm ts) (processPages cfg env ctx pageIdx pages st).1,
        (processPages cfg env ctx pageIdx pages st).2) := by
  intro pages
  induction pages with
  | nil => intro pageIdx st; rfl
  | cons p rest ih =>
      intro pageIdx st
      simp only [processPages]
      by_cases hp : p = []
      · rw [if_pos hp, if_pos hp]
        exact ih _ st
      · rw [if_neg hp, if_neg hp]
        by_cases hc : chunk_text p cfg.chunk_size cfg.chunk_overlap = []
        · rw [if_pos hc, if_pos hc]
          exact ih _ st
        · rw [if_neg hc, if_neg hc]
          by_cases hbe : cfg.batch_embed = 0
          · rw [if_pos hbe, if_pos hbe]
            rfl
          · rw [if_neg hbe, if_neg hbe]
            have hst1 : ({stMap (reTag nm ts) st with
                total_chunks := (stMap (reTag nm ts) st).total_chunks +
                  (chunk_text p cfg.chunk_size cfg.chunk_overlap).length} : IngestState) =
              stMap (reTag nm ts) ({st with total_chunks := st.total_chunks +
                (chunk_text p cfg.chunk_size cfg.chunk_overlap).length}) := by
              unfold stMap
              simp
            rw [hst1, processBatches_stMap]
            rcases hpb : processBatches cfg env ctx (pageIdx + 1)
              (chunk_text p cfg.chunk_size cfg.chunk_overlap)
              (chunk_text p cfg.chunk_size cfg.chunk_overlap).length 0
              ({st with total_chunks := st.total_chunks +
                (chunk_text p cfg.chunk_size cfg.chunk_overlap).length}) with ⟨st2, r2⟩
            cases r2 with
            | some e => rfl
            | none => exact ih _ st2

theorem finalFlush_stMap (cfg : IngestCfg) (env : ExtEnv) (f : Row → Row)
    (st : IngestState) :
    finalFlush cfg env (stMap f st) =
      (stMap f (finalFlush cfg env st).1, (finalFlush cfg env st).2) := by
  unfold finalFlush
  by_cases hg : cfg.dry_run = false ∧ st.rows_buffer ≠ []
  · rw [if_pos ?_, if_pos hg]
    · exact doFlush_stMap env _ f st
    · refine ⟨hg.1, ?_⟩
      show ¬ (stMap f st).rows_buffer = []
      intro hcon
      exact hg.2 (List.map_eq_nil.mp hcon)
  · rw [if_neg ?_, if_neg hg]
    intro hcon
    refine hg ⟨hcon.1, ?_⟩
    intro hnil
    apply hcon.2
    show (stMap f st).rows_buffer = []
    unfold stMap
    simp [hnil]

/-- Changing only the document's file name and the run timestamp maps
the whole ingestion outcome through `reTag`: every other component of
the final state, and the raised exception, are identical. -/
theorem ingest_pdf_rename (env : ExtEnv) (cfg : IngestCfg)
    (pages : List (List Char)) (bytesRead : Option (List Nat))
    (nm1 nm2 pj lk ts1 ts2 : String) :
    ingest_pdf env cfg pages bytesRead nm2 pj lk ts2 =
      (stMap (reTag nm2 ts2) (ingest_pdf env cfg pages bytesRead nm1 pj lk ts1).1,
        (ingest_pdf env cfg pages bytesRead nm1 pj lk ts1).2) := by
  unfold ingest_pdf
  have hctx : (⟨env.sha1B (bytesRead.getD []), pj, lk, nm2, ts2⟩ : RowCtx) = {(⟨env.sha1B (bytesRead.getD []), pj, lk, nm1, ts1⟩ : RowCtx) with source_pdf := nm2, timestamp := ts2} := rfl
  rw [hctx]
  have hinit : (⟨0, [], 0, [], [], []⟩ : IngestState) =
      stMap (reTag nm2 ts2) ⟨0, [], 0, [], [], []⟩ := rfl
  conv_lhs => rw [hinit, processPages_stMap]
  rcases hpp : processPages cfg env
    { file_hash := env.sha1B (bytesRead.getD []), projectName := pj, link := lk,
      source_pdf := nm1, timestamp := ts1 } 0 pages ⟨0, [], 0, [], [], []⟩ with ⟨st, r⟩
  cases r with
  | some e => rfl
  | none => exact finalFlush_stMap cfg env _ st

theorem processBatches_no_openai (cfg : IngestCfg) (env : ExtEnv) (ctx : RowCtx)
    (pn : Nat) (chunks : List (List Char)) (hdry : cfg.dry_run = false)
    (hoa : cfg.openai_key = none) :
    ∀ fuel i st, 1 ≤ fuel → i < chunks.length →
      processBatches cfg env ctx pn chunks fuel i st =
        (st, some "OPENAI_API_KEY is not set but embeddings are requested.") := by
  intro fuel
  cases fuel with
  | zero => intro i st h; omega
  | succ f =>
      intro i st _ hi
      simp only [processBatches, if_pos hi]
      have hgv : getVectors cfg env ((chunks.drop i).take cfg.batch_embed) st =
          (st, .error "OPENAI_API_KEY is not set but embeddings are requested.") := by
        unfold getVectors
        rw [if_neg (by rw [hdry]; exact Bool.noConfusion), hoa]
      rw [hgv]

theorem processPages_no_openai (cfg : IngestCfg) (env : ExtEnv) (ctx : RowCtx)
    (hdry : cfg.dry_run = false) (hoa : cfg.openai_key = none)
    (hbe : 1 ≤ cfg.batch_embed) :
    ∀ pages pageIdx st,
      (∃ p ∈ pages, chunk_text p cfg.chunk_size cfg.chunk_overlap ≠ []) →
      ∃ st', processPages cfg env ctx pageIdx pages st =
          (st', some "OPENAI_API_KEY is not set but embeddings are requested.") ∧
        st'.trace = st.trace := by
  intro pages
  induction pages with
  | nil =>
      intro pageIdx st hex
      simp at hex
  | cons p rest ih =>
      intro pageIdx st hex
      simp only [processPages]
      by_cases hp : p = []
      · rw [if_pos hp]
        refine ih _ st ?_
        rcases hex with ⟨q, hq, hqne⟩
        rcases List.mem_cons.mp hq with hq | hq
        · exfalso
          apply hqne
          rw [hq, hp, chunk_text_nil]
        · exact ⟨q, hq, hqne⟩
      · rw [if_neg hp]
        by_cases hc : chunk_text p cfg.chunk_size cfg.chunk_overlap = []
        · rw [if_pos hc]
          refine ih _ st ?_
          rcases hex with ⟨q, hq, hqne⟩
          rcases List.mem_cons.mp hq with hq | hq
          · exact absurd (hq ▸ hc) hqne
          · exact ⟨q, hq, hqne⟩
        · rw [if_neg hc, if_neg (by omega : ¬ cfg.batch_embed = 0)]
          have hlen : 0 < (chunk_text p cfg.chunk_size cfg.chunk_overlap).length :=
            List.length_pos.mpr hc
          rw [processBatches_no_openai cfg env ctx (pageIdx + 1) _ hdry hoa
            (chunk_text p cfg.chunk_size cfg.chunk_overlap).length 0 _ (by omega) hlen]
          exact ⟨_, rfl, rfl⟩

/-- Buffer/flush bounds of a completed non-dry run: empty final buffer,
every flush nonempty and at most one embedding batch above the
threshold, every non-final flush at least `write_batch` rows. -/
theorem ingest_pdf_bf (env : ExtEnv) (cfg : IngestCfg)
    (pages : List (List Char)) (bytesRead : Option (List Nat))
    (nm pj lk ts : String) (hdry : cfg.dry_run = false)
    (hwb : 1 ≤ cfg.write_batch)
    (hok : (ingest_pdf env cfg pages bytesRead nm pj lk ts).2 = none) :
    (ingest_pdf env cfg pages bytesRead nm pj lk ts).1.rows_buffer = [] ∧
    (∀ b ∈ (ingest_pdf env cfg pages bytesRead nm pj lk ts).1.flushes,
      1 ≤ b.length ∧ b.length ≤ cfg.write_batch - 1 + cfg.batch_embed) ∧
    (∀ b ∈ (ingest_pdf env cfg pages bytesRead nm pj lk ts).1.flushes.dropLast,
      cfg.write_batch ≤ b.length) := by
  revert hok
  unfold ingest_pdf
  split
  case _ st e heq => intro hok; exact absurd hok (by simp)
  case _ st heq =>
    intro hok
    have h1 := processPages_bf cfg env
      { file_hash := env.sha1B (bytesRead.getD []), projectName := pj, link := lk,
        source_pdf := nm, timestamp := ts } hdry hwb pages 0 ⟨0, [], 0, [], [], []⟩ st
      (by simpa using hwb) (by intro b hb; simp at hb) heq
    rcases hff : finalFlush cfg env st with ⟨st', r⟩
    rw [hff] at hok
    simp only [] at hok
    subst hok
    exact finalFlush_bf cfg env st hdry hwb h1.1 h1.2 st' hff

theorem doFlush_wInv (env : ExtEnv) (k : Option String) (st : IngestState)
    (h : WInv env st) : WInv env (doFlush env k st).1 := by
  cases k with
  | none => exact h
  | some key =>
      unfold WInv
      simp only [doFlush]
      cases hr : env.upsertResp st.rows_buffer.length with
      | error e => simp only [hr]; exact h
      | ok c =>
          simp only [hr]
          unfold WInv at h
          simp [h, okVal, hr]

theorem maybeFlush_wInv (cfg : IngestCfg) (env : ExtEnv) (st : IngestState)
    (h : WInv env st) : WInv env (maybeFlush cfg env st).1 := by
  unfold maybeFlush
  split
  · exact doFlush_wInv env _ st h
  · exact h

theorem processBatches_wInv (cfg : IngestCfg) (env : ExtEnv) (ctx : RowCtx)
    (pn : Nat) (chunks : List (List Char)) :
    ∀ fuel i st, WInv env st →
      WInv env (processBatches cfg env ctx pn chunks fuel i st).1 := by
  intro fuel
  induction fuel with
  | zero => intro i st h; exact h
  | succ f ih =>
      intro i st h
      by_cases hi : i < chunks.length
      · simp only [processBatches, if_pos hi]
        split
        case _ st1 e heq =>
          have hf := getVectors_fields cfg env ((chunks.drop i).take cfg.batch_embed) st
          rw [heq] at hf
          unfold WInv at *
          rw [hf.2.2.1, hf.2.2.2.1]
          exact h
        case _ st1 vectors heq =>
          have hf := getVectors_fields cfg env ((chunks.drop i).take cfg.batch_embed) st
          rw [heq] at hf
          have h1 : WInv env st1 := by
            unfold WInv at *
            rw [hf.2.2.1, hf.2.2.2.1]
            exact h
          have h2 : WInv env {st1 with
              rows_buffer := st1.rows_buffer ++ buildRows env.sha1S ctx pn i
                ((chunks.drop i).take cfg.batch_embed) vectors
              rows_all := st1.rows_all ++ buildRows env.sha1S ctx pn i
                ((chunks.drop i).take cfg.batch_embed) vectors} := h1
          have h3 := maybeFlush_wInv cfg env _ h2
          split
          case _ st3 e heq2 => rw [heq2] at h3; exact h3
          case _ st3 heq2 => rw [heq2] at h3; exact ih _ st3 h3
      · simp only [processBatches, if_neg hi]
        exact h

theorem processPages_wInv (cfg : IngestCfg) (env : ExtEnv) (ctx : RowCtx) :
    ∀ pages pageIdx st, WInv env st →
      WInv env (processPages cfg env ctx pageIdx pages st).1 := by
  intro pages
  induction pages with
  | nil => intro pageIdx st h; exact h
  | cons p rest ih =>
      intro pageIdx st h
      simp only [processPages]
      by_cases hp : p = []
      · simp only [if_pos hp]; exact ih _ st h
      · simp only [if_neg hp]
        by_cases hc : chunk_text p cfg.chunk_size cfg.chunk_overlap = []
        · simp only [if_pos hc]; exact ih _ st h
        · simp only [if_neg hc]
          by_cases hbe : cfg.batch_embed = 0
          · simp only [if_pos hbe]; exact h
          · simp only [if_neg hbe]
            have h1 := processBatches_wInv cfg env ctx (pageIdx + 1)
              (chunk_text p cfg.chunk_size cfg.chunk_overlap)
              (chunk_text p cfg.chunk_size cfg.chunk_overlap).length 0
              {st with total_chunks := st.total_chunks +
                (chunk_text p cfg.chunk_size cfg.chunk_overlap).length} h
            split
            case _ st2 e heq => rw [heq] at h1; exact h1
            case _ st2 heq => rw [heq] at h1; exact ih _ st2 h1

theorem finalFlush_wInv (cfg : IngestCfg) (env : ExtEnv) (st : IngestState)
    (h : WInv env st) : WInv env (finalFlush cfg env st).1 := by
  unfold finalFlush
  split
  · exact doFlush_wInv env _ st h
  · exact h

/-- Every `ingest_pdf` run satisfies accumulation: `rows_written` is the
sum of the counts the write endpoint reported across the run's
successful flushes. -/
theorem ingest_pdf_wInv (env : ExtEnv) (cfg : IngestCfg)
    (pages : List (List Char)) (bytesRead : Option (List Nat))
    (nm pj lk ts : String) :
    WInv env (ingest_pdf env cfg pages bytesRead nm pj lk ts).1 := by
  unfold ingest_pdf
  have h0 : WInv env ⟨0, [], 0, [], [], []⟩ := by unfold WInv; rfl
  have h1 := processPages_wInv cfg env
    { file_hash := env.sha1B (bytesRead.getD []), projectName := pj, link := lk,
      source_pdf := nm, timestamp := ts } pages 0 _ h0
  split
  case _ st e heq => rw [heq] at h1; exact h1
  case _ st heq => rw [heq] at h1; exact finalFlush_wInv cfg env st h1

/-- Every `ingest_pdf` run, whatever its configuration and however it
ends, satisfies conservation: flushed rows followed by buffered rows are
exactly the built rows, in order. -/
theorem ingest_pdf_consInv (env : ExtEnv) (cfg : IngestCfg)
    (pages : List (List Char)) (bytesRead : Option (List Nat))
    (nm pj lk ts : String) :
    ConsInv (ingest_pdf env cfg pages bytesRead nm pj lk ts).1 := by
  unfold ingest_pdf
  have h0 : ConsInv ⟨0, [], 0, [], [], []⟩ := by unfold ConsInv; rfl
  have h1 := processPages_consInv cfg env
    { file_hash := env.sha1B (bytesRead.getD []), projectName := pj, link := lk,
      source_pdf := nm, timestamp := ts } pages 0 _ h0
  split
  case _ st e heq => rw [heq] at h1; exact h1
  case _ st heq =>
    rw [heq] at h1
    exact finalFlush_consInv cfg env st h1

/-! ### Concrete instances used by witnesses and counterexamples -/

/-! ### The claims -/

/-- C1: for every pair of ingestion runs over byte-identical document
bytes with identical chunking parameters, the derived row id for each
(page number, chunk index) pair and the content hash for each chunk are
byte-identical across the two runs, even when the file name and the run
timestamp differ; and every row id is a pure function of (document byte
fingerprint, page number, chunk index) — the file name enters no id. -/
theorem claim_C1 (env : ExtEnv) (cfg : IngestCfg) (pages : List (List Char))
    (bytesRead : Option (List Nat)) (nm1 nm2 pj lk ts1 ts2 : String) :
    ((ingest_pdf env cfg pages bytesRead nm1 pj lk ts1).1.rows_all.map
        (fun r => (r.page_num, r.chunk_index, r.id, r.content_hash)) =
      (ingest_pdf env cfg pages bytesRead nm2 pj lk ts2).1.rows_all.map
        (fun r => (r.page_num, r.chunk_index, r.id, r.content_hash))) ∧
    ((ingest_pdf env cfg pages bytesRead nm1 pj lk ts1).2 =
      (ingest_pdf env cfg pages bytesRead nm2 pj lk ts2).2) ∧
    (∀ r ∈ (ingest_pdf env cfg pages bytesRead nm1 pj lk ts1).1.rows_all,
      r.id = stable_id env.sha1S (env.sha1B (bytesRead.getD [])) r.page_num r.chunk_index ∧
      r.content_hash = env.sha1S (String.mk r.content)) := by
  have hren := ingest_pdf_rename env cfg pages bytesRead nm1 nm2 pj lk ts1 ts2
  refine ⟨?_, ?_, ?_⟩
  · rw [hren]
    show _ = ((stMap (reTag nm2 ts2) _).rows_all.map _)
    unfold stMap reTag
    simp only [List.map_map]
    rfl
  · rw [hren]
  · exact ingest_pdf_row_ids env cfg pages bytesRead nm1 pj lk ts1

set_option maxRecDepth 40000 in
theorem claim_C1_witness :
    ((ingest_pdf envW ⟨none, none, true, 1, 1, 1, 0⟩ [abcPage] (some [7]) "a.pdf" "p" "l" "t1").1.rows_all.map
        (fun r => (r.page_num, r.chunk_index, r.id, r.content_hash)) =
      (ingest_pdf envW ⟨none, none, true, 1, 1, 1, 0⟩ [abcPage] (some [7]) "b.pdf" "p" "l" "t2").1.rows_all.map
        (fun r => (r.page_num, r.chunk_index, r.id, r.content_hash))) ∧
    ((mkRow envW.sha1S ⟨"FB", "p", "l", "a.pdf", "t1"⟩ 1 0 ['a'] (List.replicate 1536 0)).id =
      stable_id envW.sha1S (envW.sha1B [7]) 1 0) := by
  refine ⟨(claim_C1 envW ⟨none, none, true, 1, 1, 1, 0⟩ [abcPage] (some [7]) "a.pdf" "b.pdf" "p" "l" "t1" "t2").1, ?_⟩
  have h := (claim_C1 envW ⟨none, none, true, 1, 1, 1, 0⟩ [abcPage] (some [7]) "a.pdf" "b.pdf" "p" "l" "t1" "t2").2.2
    (mkRow envW.sha1S ⟨"FB", "p", "l", "a.pdf", "t1"⟩ 1 0 ['a'] (List.replicate 1536 0))
    (by exact List.mem_cons_self _ _)
  exact h.1

set_option maxRecDepth 10000 in
/-- C2 counterexample: a non-dry run with `write_batch = 500` over a
document of 400 pages of three one-character chunks each (1200 rows
total) and `batch_embed = 400` completes without error yet performs its
three flushes with sizes 501, 501, 198 — not 500, 500, 200 — because
rows arrive one embedding batch at a time and the buffer is only
checked against the threshold after a whole batch has been appended. -/
theorem claim_C2_counterexample :
    ((ingest_pdf envW ⟨some "k", some "t", false, 400, 500, 1, 0⟩
        (List.replicate 400 abcPage) (some []) "f.pdf" "p" "l" "ts").1.flushes.map
      List.length = [501, 501, 198]) ∧
    ((ingest_pdf envW ⟨some "k", some "t", false, 400, 500, 1, 0⟩
        (List.replicate 400 abcPage) (some []) "f.pdf" "p" "l" "ts").2 = none) ∧
    ((ingest_pdf envW ⟨some "k", some "t", false, 400, 500, 1, 0⟩
        (List.replicate 400 abcPage) (some []) "f.pdf" "p" "l" "ts").1.total_chunks = 1200) ∧
    ¬ ((ingest_pdf envW ⟨some "k", some "t", false, 400, 500, 1, 0⟩
        (List.replicate 400 abcPage) (some []) "f.pdf" "p" "l" "ts").1.flushes.map
      List.length = [500, 500, 200]) := by
  decide

/-- C2 (amended): in a non-dry run that completes without error, every
built row is submitted in exactly one flush, in order (no loss, no
duplication) and the final buffer is empty; each flush submits at least
one row and at most `write_batch - 1 + batch_embed` rows — the buffer
is below `write_batch` before an embedding batch is appended, so it can
overshoot the threshold by at most one embedding batch before the flush
is forced — and every flush except possibly the last submits at least
`write_batch` rows. -/
theorem claim_C2_amended (env : ExtEnv) (cfg : IngestCfg)
    (pages : List (List Char)) (bytesRead : Option (List Nat))
    (nm pj lk ts : String) (hdry : cfg.dry_run = false)
    (hwb : 1 ≤ cfg.write_batch)
    (hok : (ingest_pdf env cfg pages bytesRead nm pj lk ts).2 = none) :
    ((ingest_pdf env cfg pages bytesRead nm pj lk ts).1.flushes.flatten =
      (ingest_pdf env cfg pages bytesRead nm pj lk ts).1.rows_all) ∧
    ((ingest_pdf env cfg pages bytesRead nm pj lk ts).1.rows_buffer = []) ∧
    (∀ b ∈ (ingest_pdf env cfg pages bytesRead nm pj lk ts).1.flushes,
      1 ≤ b.length ∧ b.length ≤ cfg.write_batch - 1 + cfg.batch_embed) ∧
    (∀ b ∈ (ingest_pdf env cfg pages bytesRead nm pj lk ts).1.flushes.dropLast,
      cfg.write_batch ≤ b.length) := by
  have hbf := ingest_pdf_bf env cfg pages bytesRead nm pj lk ts hdry hwb hok
  have hcons := ingest_pdf_consInv env cfg pages bytesRead nm pj lk ts
  refine ⟨?_, hbf.1, hbf.2.1, hbf.2.2⟩
  unfold ConsInv at hcons
  rw [hbf.1, List.append_nil] at hcons
  exact hcons

theorem claim_C2_amended_witness :
    ((ingest_pdf envW ⟨some "k", some "t", false, 1, 2, 1, 0⟩
        (List.replicate 5 ['a']) (some []) "f.pdf" "p" "l" "ts").1.flushes.flatten =
      (ingest_pdf envW ⟨some "k", some "t", false, 1, 2, 1, 0⟩
        (List.replicate 5 ['a']) (some []) "f.pdf" "p" "l" "ts").1.rows_all) ∧
    ((ingest_pdf envW ⟨some "k", some "t", false, 1, 2, 1, 0⟩
        (List.replicate 5 ['a']) (some []) "f.pdf" "p" "l" "ts").1.rows_buffer = []) ∧
    (∀ b ∈ (ingest_pdf envW ⟨some "k", some "t", false, 1, 2, 1, 0⟩
        (List.replicate 5 ['a']) (some []) "f.pdf" "p" "l" "ts").1.flushes,
      1 ≤ b.length ∧ b.length ≤ 2 - 1 + 1) ∧
    (∀ b ∈ (ingest_pdf envW ⟨some "k", some "t", false, 1, 2, 1, 0⟩
        (List.replicate 5 ['a']) (some []) "f.pdf" "p" "l" "ts").1.flushes.dropLast,
      2 ≤ b.length) :=
  claim_C2_amended envW ⟨some "k", some "t", false, 1, 2, 1, 0⟩
    (List.replicate 5 ['a']) (some []) "f.pdf" "p" "l" "ts" rfl (by decide) (by decide)

/-- C3: for every input text, every `max_len > 0` and every integer
`overlap` (including `overlap ≥ max_len` and negative values), the
effective overlap is clamped into `[0, max_len - 1]`, so the cursor step
`max_len - effective_overlap` is at least 1; the loop's windows start at
offsets exactly one step apart in strictly increasing order, and the
chunker terminates with a finite sequence of at most `length text`
chunks. -/
theorem claim_C3 (t : List Char) (max_len overlap : Int) (hml : 0 < max_len) :
    0 ≤ effective_overlap max_len overlap ∧
    effective_overlap max_len overlap ≤ max_len - 1 ∧
    1 ≤ chunk_step max_len overlap ∧
    List.Chain' (fun a b => b = a + (chunk_step max_len overlap).toNat ∧ a < b)
      ((chunkWindows t max_len.toNat (chunk_step max_len overlap).toNat
        t.length 0).map Prod.fst) ∧
    (chunk_text t max_len overlap).length ≤ t.length := by
  have hstep := @chunk_step_pos max_len overlap hml
  refine ⟨?_, ?_, hstep, ?_, chunk_text_length_le t max_len overlap⟩
  · unfold effective_overlap
    omega
  · unfold effective_overlap
    omega
  · exact chunkWindows_starts t max_len.toNat (chunk_step max_len overlap).toNat
      (by omega) t.length 0

theorem claim_C3_witness :
    0 ≤ effective_overlap 3 5 ∧
    effective_overlap 3 5 ≤ 3 - 1 ∧
    1 ≤ chunk_step 3 5 ∧
    List.Chain' (fun a b => b = a + (chunk_step 3 5).toNat ∧ a < b)
      ((chunkWindows (List.replicate 30 'a') (Int.toNat 3) (chunk_step 3 5).toNat
        (List.replicate 30 'a').length 0).map Prod.fst) ∧
    (chunk_text (List.replicate 30 'a') 3 5).length ≤ (List.replicate 30 'a').length :=
  claim_C3 (List.replicate 30 'a') 3 5 (by decide)

/-- C4 counterexample: the single-space text has length 1, strictly
between 0 and `max_len = 5`, yet `chunk_text` returns no chunk at all
(the lone window is whitespace-only and is dropped), so "a text with
`0 < length < max_len` yields exactly one chunk" fails as stated. -/
theorem claim_C4_counterexample :
    0 < ([' '] : List Char).length ∧ ((([' '] : List Char).length : Int) < 5) ∧
    chunk_text [' '] 5 0 = [] ∧ (chunk_text [' '] 5 0).length ≠ 1 := by
  decide

/-- C4 (amended): the empty text yields no chunk; a text with
`0 < length < max_len` yields exactly one chunk — its trimmed content —
provided that trimmed content is nonempty (a whitespace-only text yields
no chunk); every emitted chunk is nonempty and trimmed; and on every run
that completes, chunk indices are assigned consecutively from 0, per
page, to exactly the kept chunks in emission order. -/
theorem claim_C4_amended (max_len overlap : Int) (t : List Char) :
    (chunk_text [] max_len overlap = []) ∧
    (0 < t.length → (t.length : Int) < max_len → pyStrip t ≠ [] →
      chunk_text t max_len overlap = [pyStrip t]) ∧
    (∀ c ∈ chunk_text t max_len overlap, c ≠ [] ∧ pyStrip c = c) ∧
    (∀ (env : ExtEnv) (cfg : IngestCfg) (pages : List (List Char))
        (bytesRead : Option (List Nat)) (nm pj lk ts : String),
      (ingest_pdf env cfg pages bytesRead nm pj lk ts).2 = none →
      (ingest_pdf env cfg pages bytesRead nm pj lk ts).1.rows_all.map
          (fun r => (r.page_num, r.chunk_index)) =
        expectedPageIdx cfg.chunk_size cfg.chunk_overlap 0 pages) := by
  refine ⟨chunk_text_nil max_len overlap, ?_, ?_, ?_⟩
  · intro h0 hlt hs
    rw [chunk_text_short h0 hlt, if_neg hs]
  · intro c hc
    exact chunk_text_mem hc
  · intro env cfg pages bytesRead nm pj lk ts hok
    exact ingest_pdf_idx env cfg pages bytesRead nm pj lk ts hok

theorem claim_C4_amended_witness :
    chunk_text ('x' :: ' ' :: []) 5 0 = [pyStrip ('x' :: ' ' :: [])] ∧
    ((ingest_pdf envW ⟨none, none, true, 1, 1, 1, 0⟩ [abcPage] (some []) "f" "p" "l" "t").1.rows_all.map
        (fun r => (r.page_num, r.chunk_index)) =
      expectedPageIdx 1 0 0 [abcPage]) :=
  ⟨(claim_C4_amended 5 0 ('x' :: ' ' :: [])).2.1 (by decide) (by decide) (by decide),
    (claim_C4_amended 1 0 []).2.2.2 envW ⟨none, none, true, 1, 1, 1, 0⟩ [abcPage]
      (some []) "f" "p" "l" "t" (by decide)⟩

/-- Dry-run characterization of a whole `ingest_pdf` run: no exception,
no flush, no network trace, `rows_written = 0`, and a final buffer of
one zero-vector row per kept chunk. -/
theorem ingest_pdf_dry (env : ExtEnv) (cfg : IngestCfg)
    (pages : List (List Char)) (bytesRead : Option (List Nat))
    (nm pj lk ts : String) (hdry : cfg.dry_run = true)
    (hbe : 1 ≤ cfg.batch_embed) :
    ∃ R : List Row,
      ingest_pdf env cfg pages bytesRead nm pj lk ts =
        (⟨(pages.map fun p => (chunk_text p cfg.chunk_size cfg.chunk_overlap).length).sum,
          R, 0, [], R, []⟩, none) ∧
      (∀ r ∈ R, r.vector = List.replicate 1536 (0 : Int)) ∧
      R.length = (pages.map fun p =>
        (chunk_text p cfg.chunk_size cfg.chunk_overlap).length).sum := by
  obtain ⟨R, hrec, hvec, hlen⟩ := processPages_dry cfg env
    { file_hash := env.sha1B (bytesRead.getD []), projectName := pj, link := lk,
      source_pdf := nm, timestamp := ts } hdry hbe pages 0 ⟨0, [], 0, [], [], []⟩
  refine ⟨R, ?_, hvec, hlen⟩
  unfold ingest_pdf
  rw [hrec]
  show finalFlush cfg env _ = _
  rw [finalFlush_dry cfg env _ hdry]
  simp only [Prod.mk.injEq, and_true]
  congr 1
  omega

/-- C5: in dry-run mode (with a positive embedding batch size),
`ingest_pdf` attempts no network call at all, raises nothing, gives
every chunk the 1536-dimensional zero vector, returns
`rows_written = 0`, and still counts every kept chunk in
`total_chunks`. -/
theorem claim_C5 (env : ExtEnv) (cfg : IngestCfg) (pages : List (List Char))
    (bytesRead : Option (List Nat)) (nm pj lk ts : String)
    (hdry : cfg.dry_run = true) (hbe : 1 ≤ cfg.batch_embed) :
    ((ingest_pdf env cfg pages bytesRead nm pj lk ts).2 = none) ∧
    ((ingest_pdf env cfg pages bytesRead nm pj lk ts).1.trace = []) ∧
    ((ingest_pdf env cfg pages bytesRead nm pj lk ts).1.rows_written = 0) ∧
    (∀ r ∈ (ingest_pdf env cfg pages bytesRead nm pj lk ts).1.rows_all,
      r.vector = List.replicate 1536 (0 : Int)) ∧
    ((ingest_pdf env cfg pages bytesRead nm pj lk ts).1.total_chunks =
      (pages.map fun p => (chunk_text p cfg.chunk_size cfg.chunk_overlap).length).sum) := by
  obtain ⟨R, heq, hvec, hlen⟩ := ingest_pdf_dry env cfg pages bytesRead nm pj lk ts hdry hbe
  rw [heq]
  exact ⟨rfl, rfl, rfl, hvec, rfl⟩

theorem claim_C5_witness :
    ((ingest_pdf envW ⟨none, none, true, 64, 500, 1, 0⟩ [abcPage, abcPage] (some []) "f" "p" "l" "t").2 = none) ∧
    ((ingest_pdf envW ⟨none, none, true, 64, 500, 1, 0⟩ [abcPage, abcPage] (some []) "f" "p" "l" "t").1.trace = []) ∧
    ((ingest_pdf envW ⟨none, none, true, 64, 500, 1, 0⟩ [abcPage, abcPage] (some []) "f" "p" "l" "t").1.rows_written = 0) ∧
    (∀ r ∈ (ingest_pdf envW ⟨none, none, true, 64, 500, 1, 0⟩ [abcPage, abcPage] (some []) "f" "p" "l" "t").1.rows_all,
      r.vector = List.replicate 1536 (0 : Int)) ∧
    ((ingest_pdf envW ⟨none, none, true, 64, 500, 1, 0⟩ [abcPage, abcPage] (some []) "f" "p" "l" "t").1.total_chunks =
      ([abcPage, abcPage].map fun p => (chunk_text p (1 : Int) (0 : Int)).length).sum) :=
  claim_C5 envW ⟨none, none, true, 64, 500, 1, 0⟩ [abcPage, abcPage] (some [])
    "f" "p" "l" "t" rfl (by decide)

/-- C6 counterexample: with the embedding key present but the index
write key missing, a non-dry single-chunk run with `write_batch = 1`
first performs an embedding network call (the trace holds one embed
event) and only then raises the missing-write-key failure — so the
credential precondition is NOT raised before any network call is
attempted for the document. -/
theorem claim_C6_counterexample :
    ((ingest_pdf envW ⟨some "k", none, false, 1, 1, 1, 0⟩ [['a']] (some []) "f" "p" "l" "t").2 =
      some "TURBOPUFFER_API_KEY is not set.") ∧
    ((ingest_pdf envW ⟨some "k", none, false, 1, 1, 1, 0⟩ [['a']] (some []) "f" "p" "l" "t").1.trace =
      [NetEvent.embedCall 1]) := by
  decide

/-- C6 (amended): a missing embedding key (non-dry run, positive batch
size, at least one kept chunk) raises its precondition failure before
any network call (the trace stays empty); a missing index write key
never lets an index-write call be attempted (the trace never contains an
upsert event) but is only detected at the first flush, possibly after
embedding calls. -/
theorem claim_C6_amended (env : ExtEnv) (cfg : IngestCfg)
    (pages : List (List Char)) (bytesRead : Option (List Nat))
    (nm pj lk ts : String) :
    (cfg.dry_run = false → cfg.openai_key = none → 1 ≤ cfg.batch_embed →
      (∃ p ∈ pages, chunk_text p cfg.chunk_size cfg.chunk_overlap ≠ []) →
      (ingest_pdf env cfg pages bytesRead nm pj lk ts).2 =
        some "OPENAI_API_KEY is not set but embeddings are requested." ∧
      (ingest_pdf env cfg pages bytesRead nm pj lk ts).1.trace = []) ∧
    (cfg.turbopuffer_key = none →
      ∀ e ∈ (ingest_pdf env cfg pages bytesRead nm pj lk ts).1.trace,
        e.isUpsert = false) := by
  constructor
  · intro hdry hoa hbe hex
    obtain ⟨st', hres, htr⟩ := processPages_no_openai cfg env
      { file_hash := env.sha1B (bytesRead.getD []), projectName := pj, link := lk,
        source_pdf := nm, timestamp := ts } hdry hoa hbe pages 0 ⟨0, [], 0, [], [], []⟩ hex
    unfold ingest_pdf
    rw [hres]
    exact ⟨rfl, htr⟩
  · intro hk
    exact ingest_pdf_noUp env cfg pages bytesRead nm pj lk ts hk

theorem claim_C6_amended_witness :
    ((ingest_pdf envW ⟨none, none, false, 1, 1, 1, 0⟩ [['a']] (some []) "f" "p" "l" "t").2 =
      some "OPENAI_API_KEY is not set but embeddings are requested." ∧
    (ingest_pdf envW ⟨none, none, false, 1, 1, 1, 0⟩ [['a']] (some []) "f" "p" "l" "t").1.trace = []) ∧
    (∀ e ∈ (ingest_pdf envW ⟨none, none, false, 1, 1, 1, 0⟩ [['a']] (some []) "f" "p" "l" "t").1.trace,
      e.isUpsert = false) :=
  ⟨(claim_C6_amended envW ⟨none, none, false, 1, 1, 1, 0⟩ [['a']] (some []) "f" "p" "l" "t").1
      rfl rfl (by decide) (by decide),
    (claim_C6_amended envW ⟨none, none, false, 1, 1, 1, 0⟩ [['a']] (some []) "f" "p" "l" "t").2 rfl⟩

/-- C7 counterexample: a rate-limited embedding response (HTTP 429, the
transient case the spec says is retried) makes `embed_batch_openai`
raise at once; the function performs a single request and has no retry
path of any kind. -/
theorem claim_C7_counterexample :
    embed_batch_openai ⟨429, []⟩ [['a']] = .error () := rfl

/-- C7 (amended): embedding errors are not retried. `embed_batch_openai`
makes exactly one request; every response with status ≥ 400 — transient
(rate limit, timeout) or not (auth, bad request) — raises immediately,
aborting the current document, and every response below 400 returns the
embeddings as-is. -/
theorem claim_C7_amended (resp : EmbResponse) (texts : List (List Char)) :
    (400 ≤ resp.status → embed_batch_openai resp texts = .error ()) ∧
    (resp.status < 400 → embed_batch_openai resp texts = .ok resp.embeddings) := by
  constructor
  · intro h
    unfold embed_batch_openai
    rw [if_pos h]
  · intro h
    unfold embed_batch_openai
    rw [if_neg (by omega)]

theorem claim_C7_amended_witness :
    embed_batch_openai ⟨500, []⟩ [] = .error () ∧
    embed_batch_openai ⟨200, [[1]]⟩ [['a']] = .ok [[1]] :=
  ⟨(claim_C7_amended ⟨500, []⟩ []).1 (by decide),
    (claim_C7_amended ⟨200, [[1]]⟩ [['a']]).2 (by decide)⟩

/-- C8 counterexample: a successful write response that omits both count
fields makes `upsert_rows_turbopuffer` return 0 — not the number of rows
submitted in the flush (3 here) as the claim states. -/
theorem claim_C8_counterexample :
    upsert_rows_turbopuffer ⟨200, true, none, none⟩ ([1, 2, 3] : List Nat) = .ok 0 ∧
    ([1, 2, 3] : List Nat).length = 3 ∧ (0 : Int) ≠ 3 :=
  ⟨rfl, rfl, by decide⟩

/-- C8 (amended): a successful flush returns
`rows_upserted or rows_affected or 0` from the response (0 — not the
submitted count — when both are absent, falsy, or the body fails to
parse); the returned count never depends on the submitted rows; and the
orchestrator's `rows_written` is the sum of the counts the write
endpoint reported across the run's successful flushes. -/
theorem claim_C8_amended (resp : TpbResponse) (rows rows2 : List Nat)
    (env : ExtEnv) (cfg : IngestCfg) (pages : List (List Char))
    (bytesRead : Option (List Nat)) (nm pj lk ts : String) :
    (resp.status < 400 → resp.json_ok = true →
      upsert_rows_turbopuffer resp rows =
        .ok (pyOrInt resp.rows_upserted (pyOrInt resp.rows_affected 0))) ∧
    (resp.status < 400 → resp.rows_upserted = none → resp.rows_affected = none →
      upsert_rows_turbopuffer resp rows = .ok 0) ∧
    (upsert_rows_turbopuffer resp rows = upsert_rows_turbopuffer resp rows2) ∧
    ((ingest_pdf env cfg pages bytesRead nm pj lk ts).1.rows_written =
      ((ingest_pdf env cfg pages bytesRead nm pj lk ts).1.flushes.map fun b =>
        okVal (env.upsertResp b.length)).sum) := by
  refine ⟨?_, ?_, rfl, ingest_pdf_wInv env cfg pages bytesRead nm pj lk ts⟩
  · intro hs hj
    unfold upsert_rows_turbopuffer
    rw [if_neg (by omega), if_pos hj]
  · intro hs hu ha
    unfold upsert_rows_turbopuffer
    rw [if_neg (by omega), hu, ha]
    by_cases hj : resp.json_ok
    · rw [if_pos hj]; rfl
    · rw [if_neg hj]

theorem claim_C8_amended_witness :
    (upsert_rows_turbopuffer ⟨200, true, some 7, none⟩ ([1] : List Nat) =
      .ok (pyOrInt (some 7) (pyOrInt none 0))) ∧
    (upsert_rows_turbopuffer ⟨200, true, none, none⟩ ([1] : List Nat) = .ok 0) ∧
    ((ingest_pdf envW ⟨some "k", some "t", false, 1, 1, 1, 0⟩ [['a']] (some []) "f" "p" "l" "t").1.rows_written =
      ((ingest_pdf envW ⟨some "k", some "t", false, 1, 1, 1, 0⟩ [['a']] (some []) "f" "p" "l" "t").1.flushes.map fun b =>
        okVal (envW.upsertResp b.length)).sum) :=
  ⟨(claim_C8_amended ⟨200, true, some 7, none⟩ [1] [1] envW ⟨some "k", some "t", false, 1, 1, 1, 0⟩
      [['a']] (some []) "f" "p" "l" "t").1 (by decide) rfl,
    (claim_C8_amended ⟨200, true, none, none⟩ [1] [1] envW ⟨some "k", some "t", false, 1, 1, 1, 0⟩
      [['a']] (some []) "f" "p" "l" "t").2.1 (by decide) rfl rfl,
    (claim_C8_amended ⟨200, true, none, none⟩ [1] [1] envW ⟨some "k", some "t", false, 1, 1, 1, 0⟩
      [['a']] (some []) "f" "p" "l" "t").2.2.2⟩

/-- C9: when reading the document's bytes fails, `ingest_pdf` does not
raise — the run is byte-for-byte the run over the empty byte string, so
the document key is the fingerprint of empty bytes; consequently every
row id of such a document is derived from `sha1B []` rather than from
its content, and any two unreadable documents assign equal ids to equal
(page number, chunk index) positions. -/
theorem claim_C9 (env : ExtEnv) (cfg : IngestCfg)
    (pages1 pages2 : List (List Char)) (nm1 pj1 lk1 ts1 nm2 pj2 lk2 ts2 : String) :
    (ingest_pdf env cfg pages1 none nm1 pj1 lk1 ts1 =
      ingest_pdf env cfg pages1 (some []) nm1 pj1 lk1 ts1) ∧
    (∀ r ∈ (ingest_pdf env cfg pages1 none nm1 pj1 lk1 ts1).1.rows_all,
      r.id = stable_id env.sha1S (env.sha1B []) r.page_num r.chunk_index) ∧
    (∀ r1 ∈ (ingest_pdf env cfg pages1 none nm1 pj1 lk1 ts1).1.rows_all,
      ∀ r2 ∈ (ingest_pdf env cfg pages2 none nm2 pj2 lk2 ts2).1.rows_all,
        r1.page_num = r2.page_num → r1.chunk_index = r2.chunk_index →
          r1.id = r2.id) := by
  refine ⟨rfl, ?_, ?_⟩
  · intro r hr
    exact (ingest_pdf_row_ids env cfg pages1 none nm1 pj1 lk1 ts1 r hr).1
  · intro r1 hr1 r2 hr2 hpn hci
    have h1 := (ingest_pdf_row_ids env cfg pages1 none nm1 pj1 lk1 ts1 r1 hr1).1
    have h2 := (ingest_pdf_row_ids env cfg pages2 none nm2 pj2 lk2 ts2 r2 hr2).1
    rw [h1, h2, hpn, hci]

set_option maxRecDepth 40000 in
theorem claim_C9_witness :
    (ingest_pdf envW ⟨none, none, true, 1, 1, 1, 0⟩ [['a']] none "f1" "p" "l" "t1" =
      ingest_pdf envW ⟨none, none, true, 1, 1, 1, 0⟩ [['a']] (some []) "f1" "p" "l" "t1") ∧
    ((mkRow envW.sha1S ⟨"FB", "p", "l", "f1", "t1"⟩ 1 0 ['a'] (List.replicate 1536 0)).id =
      stable_id envW.sha1S (envW.sha1B []) 1 0) :=
  ⟨(claim_C9 envW ⟨none, none, true, 1, 1, 1, 0⟩ [['a']] [['b']] "f1" "p" "l" "t1" "f2" "p" "l" "t2").1,
    (claim_C9 envW ⟨none, none, true, 1, 1, 1, 0⟩ [['a']] [['b']] "f1" "p" "l" "t1" "f2" "p" "l" "t2").2.1
      (mkRow envW.sha1S ⟨"FB", "p", "l", "f1", "t1"⟩ 1 0 ['a'] (List.replicate 1536 0))
      (by exact List.mem_cons_self _ _)⟩

/-- C10: in dry-run mode the write buffer is never flushed or cleared:
after the last page the buffer holds exactly one row per kept chunk of
the whole document (it equals the full build history), so the peak
buffer size equals `total_chunks` rather than being capped at
`write_batch`. -/
theorem claim_C10 (env : ExtEnv) (cfg : IngestCfg) (pages : List (List Char))
    (bytesRead : Option (List Nat)) (nm pj lk ts : String)
    (hdry : cfg.dry_run = true) (hbe : 1 ≤ cfg.batch_embed) :
    ((ingest_pdf env cfg pages bytesRead nm pj lk ts).1.flushes = []) ∧
    ((ingest_pdf env cfg pages bytesRead nm pj lk ts).1.rows_buffer =
      (ingest_pdf env cfg pages bytesRead nm pj lk ts).1.rows_all) ∧
    ((ingest_pdf env cfg pages bytesRead nm pj lk ts).1.rows_buffer.length =
      (ingest_pdf env cfg pages bytesRead nm pj lk ts).1.total_chunks) := by
  obtain ⟨R, heq, hvec, hlen⟩ := ingest_pdf_dry env cfg pages bytesRead nm pj lk ts hdry hbe
  rw [heq]
  exact ⟨rfl, rfl, hlen⟩

theorem claim_C10_witness :
    ((ingest_pdf envW ⟨none, none, true, 64, 2, 1, 0⟩ [abcPage, abcPage] (some []) "f" "p" "l" "t").1.flushes = []) ∧
    ((ingest_pdf envW ⟨none, none, true, 64, 2, 1, 0⟩ [abcPage, abcPage] (some []) "f" "p" "l" "t").1.rows_buffer =
      (ingest_pdf envW ⟨none, none, true, 64, 2, 1, 0⟩ [abcPage, abcPage] (some []) "f" "p" "l" "t").1.rows_all) ∧
    ((ingest_pdf envW ⟨none, none, true, 64, 2, 1, 0⟩ [abcPage, abcPage] (some []) "f" "p" "l" "t").1.rows_buffer.length =
      (ingest_pdf envW ⟨none, none, true, 64, 2, 1, 0⟩ [abcPage, abcPage] (some []) "f" "p" "l" "t").1.total_chunks) :=
  claim_C10 envW ⟨none, none, true, 64, 2, 1, 0⟩ [abcPage, abcPage] (some [])
    "f" "p" "l" "t" rfl (by decide)
